import Mathlib

/-!
Shallow embedding of the RobotPathfinder C++ motion-planning core
(`src/main/cpp`), used to check the natural-language specification against
the code.  Doubles are idealized as rationals (`ℚ`, with `x / 0 = 0`);
the transcendental library functions `std::sin`, `std::cos`, `std::atan2`
and `std::sqrt` are passed in as function parameters, since the claims
under study do not depend on their analytic values.  Out-of-bounds vector
accesses and casts of negative values to `size_t` (undefined behaviour in
the C++ source) are modelled as explicit error results.
-/

namespace RPF

/-- Errors surfaced by the embedded operations.  `invalidParams` and
`constraintInfeasible` model the two `std::invalid_argument` throws,
`notGenerated` models the `std::runtime_error` thrown by `s2t`/`t2s`
before `compute_len`, `outOfBounds` models undefined behaviour from
out-of-range vector indexing, and `fuelExhausted` marks a binary-search
loop that did not return within its iteration budget. -/
inductive Err where
  | invalidParams
  | constraintInfeasible
  | notGenerated
  | outOfBounds
  | fuelExhausted
deriving DecidableEq

instance {ε α : Type} [DecidableEq ε] [DecidableEq α] : DecidableEq (Except ε α) := fun a b =>
  match a, b with
  | .error e, .error f =>
    if h : e = f then .isTrue (by rw [h]) else .isFalse (fun hc => by cases hc; exact h rfl)
  | .ok x, .ok y =>
    if h : x = y then .isTrue (by rw [h]) else .isFalse (fun hc => by cases hc; exact h rfl)
  | .error _, .ok _ => .isFalse (fun hc => by cases hc)
  | .ok _, .error _ => .isFalse (fun hc => by cases hc)

/-- 2D vector (`Vec2D` in `math/vec2d.h`), with rational coordinates. -/
structure Vec2 where
  x : ℚ
  y : ℚ
deriving DecidableEq

/-- Squared euclidean distance helper: `Vec2D::dist` is
`hypot(dx, dy)`; the square root is supplied as a parameter. -/
def distQ (sqrtQ : ℚ → ℚ) (a b : Vec2) : ℚ :=
  sqrtQ ((a.x - b.x) * (a.x - b.x) + (a.y - b.y) * (a.y - b.y))

/-- Modelled from the spec: `lerp(a, b, f) = a + (b − a)·f` from
`math/rpfmath.h`, whose source file is not under `src/`. -/
def lerpQ (a b f : ℚ) : ℚ := a + (b - a) * f

/-- Modelled from the spec: `rabs(v, limit)` from `math/rpfmath.h` (not
under `src/`) clips the magnitude of `v` to `limit`, preserving sign. -/
def rabs (v limit : ℚ) : ℚ :=
  if v > limit then limit else if v < -limit then -limit else v

/-- Modelled from the spec: `curvature(dx, ddx, dy, ddy) =
(dx·ddy − dy·ddx) / (dx² + dy²)^(3/2)` from `math/rpfmath.h` (not under
`src/`); the 3/2 power is `z·sqrt z` with the square root a parameter. -/
def curvatureQ (sqrtQ : ℚ → ℚ) (dx ddx dy ddy : ℚ) : ℚ :=
  (dx * ddy - dy * ddx) / ((dx * dx + dy * dy) * sqrtQ (dx * dx + dy * dy))

/-- Largest `k` with `k·k ≤ n`, by bounded search (kernel-reducible). -/
def natSqrtF (n : Nat) : Nat :=
  (((List.range (n + 2)).filter fun k => k * k ≤ n).getLast?).getD 0

/-- A rational square root used to instantiate the `sqrtQ` parameter in
concrete runs; exact on perfect squares such as `1/4`. -/
def ratSqrt (q : ℚ) : ℚ :=
  if q < 0 then 0 else (natSqrtF q.num.toNat : ℚ) / (natSqrtF q.den : ℚ)

/-- An over-approximating square root used to instantiate the `sqrtQ`
parameter where the monotone bound `x² ≤ y → x ≤ sqrt y` is needed. -/
def sqrtUp (q : ℚ) : ℚ := if q < 0 then 0 else q + 1

theorem sqrtUp_nonneg (q : ℚ) : 0 ≤ sqrtUp q := by
  unfold sqrtUp; split <;> linarith

theorem sqrtUp_ge (x y : ℚ) (hx : 0 ≤ x) (hxy : x * x ≤ y) : x ≤ sqrtUp y := by
  unfold sqrtUp
  have h0 : 0 ≤ y := le_trans (mul_self_nonneg x) hxy
  rw [if_neg (not_lt.mpr h0)]
  nlinarith [sq_nonneg (x - 1)]

/-- Truncation toward zero, as C's `fmod(x, 1.0)` subtracts. -/
def truncQ (x : ℚ) : ℤ := if 0 ≤ x then ⌊x⌋ else -⌊-x⌋

/-- C's `std::fmod(x, 1.0)`. -/
def cFmod1 (x : ℚ) : ℚ := x - (truncQ x : ℚ)

/-- One spline segment, abstracted by its three evaluation maps
(`SplineSegment::at`, `deriv_at`, `second_deriv_at`); the concrete
Bezier/Hermite implementations are not among the sources under study. -/
structure SplineSegmentM where
  at' : ℚ → Vec2
  deriv_at : ℚ → Vec2
  second_deriv_at : ℚ → Vec2

/-- The `Path` state relevant to `path.cpp`: its segment list, the base
radius and the backwards flag. -/
structure PathS where
  segments : List SplineSegmentM
  base_radius : ℚ
  backwards : Bool

/-- `Path::at` (path.cpp:14): if `t ≥ 1` evaluate the last segment at 1;
otherwise scale by the segment count, index with `(size_t)floor`, and
evaluate at `fmod(t', 1)`.  A negative scaled parameter makes the
`size_t` cast of the floor undefined; that case is an error. -/
def PathS.at' (p : PathS) (t : ℚ) : Except Err Vec2 :=
  if 1 ≤ t then
    match p.segments.getLast? with
    | some sg => .ok (sg.at' 1)
    | none => .error .outOfBounds
  else
    let ts := t * (p.segments.length : ℚ)
    let i : ℤ := ⌊ts⌋
    if h : 0 ≤ i ∧ i.toNat < p.segments.length then
      .ok ((p.segments.get ⟨i.toNat, h.2⟩).at' (cFmod1 ts))
    else .error .outOfBounds

/-- `Path::deriv_at` (path.cpp:22), same indexing scheme as `at`. -/
def PathS.deriv_at (p : PathS) (t : ℚ) : Except Err Vec2 :=
  if 1 ≤ t then
    match p.segments.getLast? with
    | some sg => .ok (sg.deriv_at 1)
    | none => .error .outOfBounds
  else
    let ts := t * (p.segments.length : ℚ)
    let i : ℤ := ⌊ts⌋
    if h : 0 ≤ i ∧ i.toNat < p.segments.length then
      .ok ((p.segments.get ⟨i.toNat, h.2⟩).deriv_at (cFmod1 ts))
    else .error .outOfBounds

/-- `Path::second_deriv_at` (path.cpp:30), same indexing scheme. -/
def PathS.second_deriv_at (p : PathS) (t : ℚ) : Except Err Vec2 :=
  if 1 ≤ t then
    match p.segments.getLast? with
    | some sg => .ok (sg.second_deriv_at 1)
    | none => .error .outOfBounds
  else
    let ts := t * (p.segments.length : ℚ)
    let i : ℤ := ⌊ts⌋
    if h : 0 ≤ i ∧ i.toNat < p.segments.length then
      .ok ((p.segments.get ⟨i.toNat, h.2⟩).second_deriv_at (cFmod1 ts))
    else .error .outOfBounds

/-- `Path::wheels_at` (path.cpp:38), transcribed literally: the second
wheel's first coordinate is built from `pos.get_y()` as in the source
(line 49), and both offsets flip sign when `backwards` is set. -/
def PathS.wheels_at (sinQ cosQ : ℚ → ℚ) (atan2Q : ℚ → ℚ → ℚ) (p : PathS)
    (t : ℚ) : Except Err (Vec2 × Vec2) := do
  let pos ← p.at' t
  let deriv ← p.deriv_at t
  let heading := atan2Q deriv.y deriv.x
  let s := sinQ heading
  let c := cosQ heading
  let r := p.base_radius
  .ok (⟨pos.x - (if !p.backwards then r * s else -(r * s)),
        pos.y + (if !p.backwards then r * c else -(r * c))⟩,
       ⟨pos.y + (if !p.backwards then r * s else -(r * s)),
        pos.y - (if !p.backwards then r * c else -(r * c))⟩)

/-- The body of the sampling loop in `Path::compute_len` (path.cpp:62). -/
def computeLenStep (sqrtQ : ℚ → ℚ) (p : PathS) (dt : ℚ)
    (st : Vec2 × ℚ × List (ℚ × ℚ)) (i : Nat) : Except Err (Vec2 × ℚ × List (ℚ × ℚ)) := do
  let current ← p.at' ((i : ℚ) * dt)
  let total := st.2.1 + distQ sqrtQ st.1 current
  .ok (current, total, st.2.2 ++ [(total, (i : ℚ) * dt)])

/-- `Path::compute_len` (path.cpp:54), transcribed literally: the table
is `resize`d to `points` default entries and then grown by `push_back`,
so it ends up with `2·points` rows.  Returns `(total_len, s2t_table)`. -/
def computeLen (sqrtQ : ℚ → ℚ) (p : PathS) (points : Nat) : Except Err (ℚ × List (ℚ × ℚ)) := do
  let dt : ℚ := 1 / ((points : ℚ) - 1)
  let first ← p.at' 0
  let table0 := List.replicate points ((0 : ℚ), (0 : ℚ)) ++ [(0, 0)]
  let st ← (List.range' 1 (points - 1)).foldlM (computeLenStep sqrtQ p dt) (first, 0, table0)
  .ok (st.2.1, st.2.2)

/-- The `while(true)` binary-search loop of `Path::s2t` (path.cpp:88),
with an explicit iteration budget. -/
def s2tGo (table : List (ℚ × ℚ)) (dist : ℚ) : Nat → Nat → Nat → Except Err ℚ
  | 0, _, _ => .error .fuelExhausted
  | fuel + 1, start, stop =>
    let mid := (start + stop) / 2
    match table.get? mid with
    | none => .error .outOfBounds
    | some pm =>
      if pm.1 = dist then .ok pm.2
      else if mid = table.length - 1 then .ok 1
      else if mid = 0 then .ok 0
      else
        match table.get? (mid + 1) with
        | none => .error .outOfBounds
        | some pn =>
          if pm.1 ≤ dist ∧ dist ≤ pn.1 then
            .ok (lerpQ pm.2 pn.2 ((dist - pm.1) / (pn.1 - pm.1)))
          else if pm.1 < dist then s2tGo table dist fuel mid stop
          else s2tGo table dist fuel start mid

/-- `Path::s2t` (path.cpp:75): an empty table throws; the scaled distance
is compared against the second-to-last entry before the search loop (a
one-entry table makes that read out of bounds). -/
def s2t (table : List (ℚ × ℚ)) (total_len : ℚ) (s : ℚ) : Except Err ℚ :=
  if table.length = 0 then .error .notGenerated
  else
    let dist := s * total_len
    if h : 2 ≤ table.length then
      if dist > (table.get ⟨table.length - 2, by omega⟩).1 then .ok 1
      else s2tGo table dist (table.length + 2) 0 (table.length - 1)
    else .error .outOfBounds

/-- A one-segment path whose segment is constantly at `(1, 2)` with unit
derivative, base radius `0`: a concrete input for `wheels_at`. -/
def pathC1 : PathS :=
  ⟨[⟨fun _ => ⟨1, 2⟩, fun _ => ⟨0, 1⟩, fun _ => ⟨0, 0⟩⟩], 0, false⟩

/-- A one-segment path moving straight up the y-axis: a concrete input
for `compute_len`. -/
def p7 : PathS :=
  ⟨[⟨fun u => ⟨0, u⟩, fun _ => ⟨0, 1⟩, fun _ => ⟨0, 0⟩⟩], 0, false⟩

/-- A two-segment path: a concrete input for the out-of-range queries. -/
def p9 : PathS :=
  ⟨[⟨fun u => ⟨u, 0⟩, fun _ => ⟨1, 0⟩, fun _ => ⟨0, 0⟩⟩,
    ⟨fun u => ⟨1 + u, 0⟩, fun _ => ⟨1, 0⟩, fun _ => ⟨0, 0⟩⟩], 0, false⟩

/-- The table produced by `compute_len(3)` on `p7`: the `resize(points)`
rows of zeros, the pushed `(0, 0)` row, then the two sampled rows. -/
def tableC7 : List (ℚ × ℚ) := [(0, 0), (0, 0), (0, 0), (0, 0), (1/2, 1/2), (1, 1)]

/-- C1.  With `backwards = false` the first (left) wheel matches the
specified formula, but the second (right) wheel's first coordinate is
built from `pos.get_y()` (path.cpp:49) instead of `pos.get_x()`: on a
path positioned at `(1, 2)` with base radius `0`, the right wheel comes
out as `(2, 2)` whereas the claimed formula gives `(1, 2)` — for every
choice of the trigonometric primitives. -/
theorem wheels_at_right_wheel_uses_pos_y (sinQ cosQ : ℚ → ℚ) (atan2Q : ℚ → ℚ → ℚ) :
    PathS.wheels_at sinQ cosQ atan2Q pathC1 0 = .ok (⟨1, 2⟩, ⟨2, 2⟩) ∧
    (⟨2, 2⟩ : Vec2) ≠ ⟨1 + pathC1.base_radius * sinQ (atan2Q 1 0),
                       2 - pathC1.base_radius * cosQ (atan2Q 1 0)⟩ := by
  constructor
  · simp only [PathS.wheels_at, PathS.at', PathS.deriv_at, pathC1, cFmod1, truncQ]
    norm_num
    rfl
  · simp [pathC1]

/-- C7.  `compute_len(points)` on a fresh path leaves `2·points` entries
in `s2t_table`, not `points`: the vector is `resize`d to `points`
default `(0, 0)` rows and then grown by `push_back` (path.cpp:59-66).
Concretely, `compute_len(3)` on `p7` yields a 6-row table (whose last
arc-length entry does equal the returned total length `1`). -/
theorem compute_len_table_has_2points_entries :
    computeLen ratSqrt p7 3 = .ok (1, tableC7) ∧
    tableC7.length = 2 * 3 ∧ tableC7.length ≠ 3 ∧
    tableC7.getLast? = some (1, 1) := by
  refine ⟨by with_unfolding_all rfl, by decide, by decide, by with_unfolding_all rfl⟩

/-- C9 (counterexample).  For `t = −1/2` on a two-segment path, the
scaled parameter is `−1` and its floor is negative, so the segment index
is out of bounds and evaluation faults instead of returning the first
segment's value at local parameter `0` (which would be `(0, 0)`). -/
theorem path_at_negative_t_faults :
    PathS.at' p9 (-(1 : ℚ)/2) = .error .outOfBounds ∧
    (Except.error Err.outOfBounds : Except Err Vec2) ≠ .ok ⟨0, 0⟩ := by
  refine ⟨by with_unfolding_all rfl, by simp⟩

/-- C9 (amended).  `at`, `deriv_at` and `second_deriv_at` clamp only on
the high side: for `t ≥ 1` they return the last segment's value at local
parameter `1`, while for `t < 0` the computed floor index is negative and
the access is out of bounds (an error, not a clamp). -/
theorem path_eval_clamps_high_side_only (p : PathS) (t : ℚ) (hne : p.segments ≠ []) :
    (1 ≤ t → p.at' t = .ok ((p.segments.getLast hne).at' 1) ∧
      p.deriv_at t = .ok ((p.segments.getLast hne).deriv_at 1) ∧
      p.second_deriv_at t = .ok ((p.segments.getLast hne).second_deriv_at 1)) ∧
    (t < 0 → p.at' t = .error .outOfBounds ∧
      p.deriv_at t = .error .outOfBounds ∧
      p.second_deriv_at t = .error .outOfBounds) := by
  have hlast := List.getLast?_eq_getLast_of_ne_nil hne
  have hlen : 0 < p.segments.length := List.length_pos.mpr hne
  constructor
  · intro h1
    refine ⟨?_, ?_, ?_⟩ <;>
      simp only [PathS.at', PathS.deriv_at, PathS.second_deriv_at, if_pos h1, hlast]
  · intro h0
    have hts : t * (p.segments.length : ℚ) < 0 :=
      mul_neg_of_neg_of_pos h0 (by exact_mod_cast hlen)
    have hfl : ¬ (0 ≤ ⌊t * (p.segments.length : ℚ)⌋) := by
      rw [Int.floor_nonneg]; exact not_le.mpr hts
    have hnot1 : ¬ (1 ≤ t) := by linarith
    refine ⟨?_, ?_, ?_⟩ <;>
      · simp only [PathS.at', PathS.deriv_at, PathS.second_deriv_at, if_neg hnot1]
        rw [dif_neg (by intro hc; exact hfl hc.1)]

/-- Witness for `path_eval_clamps_high_side_only` at the concrete path
`p9` and `t = 5`. -/
theorem path_eval_clamps_high_side_only_witness :
    p9.segments ≠ [] ∧
    ((1 ≤ (5 : ℚ) → p9.at' 5 = .ok ((p9.segments.getLast (by simp [p9])).at' 1) ∧
      p9.deriv_at 5 = .ok ((p9.segments.getLast (by simp [p9])).deriv_at 1) ∧
      p9.second_deriv_at 5 = .ok ((p9.segments.getLast (by simp [p9])).second_deriv_at 1)) ∧
     ((5 : ℚ) < 0 → p9.at' 5 = .error .outOfBounds ∧
      p9.deriv_at 5 = .error .outOfBounds ∧
      p9.second_deriv_at 5 = .error .outOfBounds)) :=
  ⟨by simp [p9], path_eval_clamps_high_side_only p9 5 (by simp [p9])⟩

/-- C10.  Whenever the scaled arc length `s · total_len` strictly exceeds
the arc-length entry of the second-to-last table row, `s2t` returns `1`
from its pre-loop check (path.cpp:85) — the last table interval is never
interpolated, even for `s < 1`. -/
theorem s2t_returns_one_past_second_to_last (table : List (ℚ × ℚ)) (total s : ℚ)
    (pen : ℚ × ℚ) (h2 : 2 ≤ table.length)
    (hp : table.get? (table.length - 2) = some pen)
    (hgt : s * total > pen.1) :
    s2t table total s = .ok 1 := by
  have h0 : ¬ (table.length = 0) := by omega
  have hlt : table.length - 2 < table.length := by omega
  have hget : table.get ⟨table.length - 2, hlt⟩ = pen := by
    have := List.get?_eq_get hlt
    rw [this] at hp
    exact Option.some.inj hp
  simp only [s2t, if_neg h0, dif_pos h2, hget, if_pos hgt]

/-- Witness for `s2t_returns_one_past_second_to_last`: a three-row table
with total length `2` and `s = 9/10 < 1`, whose scaled distance `9/5`
exceeds the second-to-last arc-length entry `1`. -/
theorem s2t_returns_one_past_second_to_last_witness :
    (2 ≤ ([((0 : ℚ), (0 : ℚ)), (1, 1/2), (2, 1)]).length) ∧ ((9 : ℚ)/10 < 1) ∧
    s2t [((0 : ℚ), (0 : ℚ)), (1, 1/2), (2, 1)] 2 (9/10) = .ok 1 :=
  ⟨by decide, by norm_num,
    s2t_returns_one_past_second_to_last _ 2 (9/10) (1, 1/2) (by decide)
      (by with_unfolding_all rfl) (by norm_num)⟩

/-- `RobotSpecs` (robotspecs.h): maximum velocity, maximum acceleration
and base width. -/
structure RobotSpecs where
  max_v : ℚ
  max_a : ℚ
  base_width : ℚ
deriving DecidableEq

/-- A waypoint; `velocity` is a `double` that is `NaN` when unset, which
is modelled as `Option ℚ` (`std::isnan` checks become `Option` matches). -/
structure Waypoint where
  x : ℚ
  y : ℚ
  heading : ℚ
  velocity : Option ℚ
deriving DecidableEq

/-- `TrajectoryParams` (trajectoryparams.h), restricted to the fields the
trajectory constructors read. -/
structure TrajectoryParams where
  waypoints : List Waypoint
  alpha : ℚ
  seg_count : Nat
  is_tank : Bool
deriving DecidableEq

/-- `BasicMoment` (basicmoment.h). -/
structure BasicMoment where
  dist : ℚ
  vel : ℚ
  accel : ℚ
  heading : ℚ
  time : ℚ
  init_facing : ℚ
  backwards : Bool
deriving DecidableEq

/-- The 4-argument `BasicMoment` constructor (basicmoment.h:13).  It
assigns `dist`, `vel`, `accel` and sets `init_facing` to NaN, but never
assigns `heading` or `time`: those two fields keep their indeterminate
value, modelled by the explicit parameter `uninit` (which also stands in
for the NaN written to `init_facing`).  The heading argument `h` is
accepted and discarded, exactly as in the source. -/
def mk4 (uninit d v a h : ℚ) : BasicMoment :=
  { dist := d, vel := v, accel := a, heading := uninit, time := uninit,
    init_facing := uninit, backwards := false }

/-- The `Path` interface as consumed by the trajectory constructors:
`s2t`, `t2s`, the two derivatives, `wheels_at`, and the total length
returned by `compute_len`.  The trajectory headers call these virtually
on a freshly built path whose spline implementation is outside the
sources under study, so they enter the embedding as parameters. -/
structure PathM where
  s2t : ℚ → ℚ
  t2s : ℚ → ℚ
  deriv_at : ℚ → Vec2
  second_deriv_at : ℚ → Vec2
  wheels_at : ℚ → Vec2 × Vec2
  len : ℚ

/-- Context threaded through the forward profiling pass. -/
structure FwdCtx where
  specs : RobotSpecs
  dpi : ℚ
  mv : List ℚ
  headings : List ℚ
  sqrtQ : ℚ → ℚ
  uninit : ℚ

/-- State of the forward profiling pass: the moments built so far in
reverse order (head = most recent), the recorded time deltas in reverse
order (`none` = the NaN the vector was filled with), the "constrained"
flags aligned with the moments, and the pending waypoint velocity
constraints. -/
structure FwdState where
  revM : List BasicMoment
  revTd : List (Option ℚ)
  revFlags : List Bool
  constraints : List (ℚ × ℚ)

/-- The unconstrained branches of the forward pass
(basictrajectory.h:104-125): accelerate toward the per-sample velocity
cap, recording the time delta, or cruise at the cap. -/
def fwdFree (cx : FwdCtx) (i : Nat) (prev : BasicMoment) (rest : List BasicMoment)
    (revTd : List (Option ℚ)) (revFlags : List Bool) (constraints : List (ℚ × ℚ)) :
    Except Err FwdState :=
  let dist := (i : ℚ) * cx.dpi
  match cx.mv.get? i, cx.headings.get? i with
  | some mvi, some h =>
    if prev.vel < mvi then
      let maxv := cx.sqrtQ (prev.vel * prev.vel + 2 * cx.specs.max_a * cx.dpi)
      if maxv > mvi then
        let accel := (mvi * mvi - prev.vel * prev.vel) / (2 * cx.dpi)
        .ok ⟨mk4 cx.uninit dist mvi 0 h :: { prev with accel := accel } :: rest,
             some ((mvi - prev.vel) / accel) :: revTd, false :: revFlags, constraints⟩
      else
        .ok ⟨mk4 cx.uninit dist maxv 0 h :: { prev with accel := cx.specs.max_a } :: rest,
             some ((maxv - prev.vel) / cx.specs.max_a) :: revTd, false :: revFlags, constraints⟩
    else
      .ok ⟨mk4 cx.uninit dist mvi 0 h :: { prev with accel := 0 } :: rest,
           none :: revTd, false :: revFlags, constraints⟩
  | _, _ => .error .outOfBounds

/-- One iteration of the forward profiling pass (basictrajectory.h:81-126)
at sample index `i`.  If a pending waypoint velocity constraint has come
due, it is consumed: a target above the previous velocity demands the raw
squared-velocity difference `v*² − v_prev²` as acceleration and fails
when that exceeds `max_a` (lines 89-91, with no division by `2·dpi`). -/
def fwdStep (cx : FwdCtx) (st : FwdState) (i : Nat) : Except Err FwdState :=
  match st.revM with
  | [] => .error .outOfBounds
  | prev :: rest =>
    let dist := (i : ℚ) * cx.dpi
    match st.constraints with
    | (cpos, cvel) :: ctail =>
      if dist ≥ cpos then
        if cvel > prev.vel then
          let accel := cvel * cvel - prev.vel * prev.vel
          if accel > cx.specs.max_a then .error .constraintInfeasible
          else
            match cx.headings.get? i with
            | none => .error .outOfBounds
            | some h =>
              .ok ⟨mk4 cx.uninit dist cvel 0 h :: { prev with accel := accel } :: rest,
                   some ((cvel - prev.vel) / accel) :: st.revTd, true :: st.revFlags, ctail⟩
        else
          match cx.headings.get? i with
          | none => .error .outOfBounds
          | some h =>
            .ok ⟨mk4 cx.uninit dist cvel 0 h :: { prev with accel := 0 } :: rest,
                 none :: st.revTd, true :: st.revFlags, ctail⟩
      else fwdFree cx i prev rest st.revTd st.revFlags st.constraints
    | [] => fwdFree cx i prev rest st.revTd st.revFlags st.constraints

/-- The forward pass, iterated over the sample indices. -/
def fwdLoop (cx : FwdCtx) : FwdState → List Nat → Except Err FwdState
  | st, [] => .ok st
  | st, i :: is =>
    match fwdStep cx st i with
    | .ok st2 => fwdLoop cx st2 is
    | .error e => .error e

/-- The terminal adjustment (basictrajectory.h:128-129): the last moment
gets the end waypoint's velocity (`0` when unset) and zero acceleration.
Operates on the reversed moment list, whose head is the last moment. -/
def terminalAdjust (endVel : ℚ) : List BasicMoment → List BasicMoment
  | [] => []
  | last :: rest => { last with vel := endVel, accel := 0 } :: rest

/-- One iteration of the backward pass (basictrajectory.h:131-153) for a
moment `m` whose successor (already processed) is `next`; `td` is the
time delta currently recorded for the transition out of `m`, `flag`
whether `m`'s sample was marked "constrained". -/
def bwdStep (max_a dpi : ℚ) (sqrtQ : ℚ → ℚ) (next m : BasicMoment) (td : Option ℚ)
    (flag : Bool) : Except Err (BasicMoment × Option ℚ) :=
  if m.vel > next.vel then
    if sqrtQ (next.vel * next.vel + 2 * max_a * dpi) > m.vel then
      .ok ({ m with accel := -((m.vel * m.vel - next.vel * next.vel) / (2 * dpi)) },
           some ((next.vel - m.vel) / -((m.vel * m.vel - next.vel * next.vel) / (2 * dpi))))
    else if flag then .error .constraintInfeasible
    else
      .ok ({ m with vel := sqrtQ (next.vel * next.vel + 2 * max_a * dpi), accel := -max_a },
           some ((next.vel - sqrtQ (next.vel * next.vel + 2 * max_a * dpi)) / -max_a))
  else .ok (m, td)

/-- The backward pass, walking the reversed tail of the moment list (the
C++ loop runs the indices `n−2` down to `0`); each processed moment
becomes the `next` of the one below it. -/
def bwdLoop (max_a dpi : ℚ) (sqrtQ : ℚ → ℚ) :
    BasicMoment → List BasicMoment → List (Option ℚ) → List Bool →
    Except Err (List BasicMoment × List (Option ℚ))
  | _, [], _, _ => .ok ([], [])
  | next, m :: ms, td :: tds, f :: fs =>
    match bwdStep max_a dpi sqrtQ next m td f with
    | .error e => .error e
    | .ok (m2, td2) =>
      match bwdLoop max_a dpi sqrtQ m2 ms tds fs with
      | .error e => .error e
      | .ok (ms2, tds2) => .ok (m2 :: ms2, td2 :: tds2)
  | _, _ :: _, _, _ => .error .outOfBounds

/-- The time-integration sweep (basictrajectory.h:160-168): each moment's
time is the previous moment's time plus the recorded delta, or
`(dist_i − dist_{i−1}) / vel_{i−1}` when none was recorded. -/
def integLoop (prev : BasicMoment) : List (BasicMoment × Option ℚ) → List BasicMoment
  | [] => []
  | (m, td) :: rest =>
    let dt := match td with
      | some x => x
      | none => (m.dist - prev.dist) / prev.vel
    let m2 := { m with time := prev.time + dt }
    m2 :: integLoop m2 rest

/-- The data held by a built `BasicTrajectory`. -/
structure BasicTrajectory where
  moments : List BasicMoment
  patht : List ℚ
  pathr : List ℚ
  init_facing : ℚ
  specs : RobotSpecs
  params : TrajectoryParams

/-- The `BasicTrajectory` constructor (basictrajectory.h:18-169).  The
leading fewer-than-two-waypoints rejection is modelled from the spec: it
belongs to the `Path` construction on line 19, whose source is not under
`src/`; everything after it transcribes the constructor body.  `sqrtQ`
and `atan2Q` stand for `std::sqrt` / `std::atan2`, and `uninit` is the
indeterminate value of never-assigned `double` fields. -/
def basicTrajectory (sqrtQ : ℚ → ℚ) (atan2Q : ℚ → ℚ → ℚ) (uninit : ℚ) (pm : PathM)
    (specs : RobotSpecs) (params : TrajectoryParams) : Except Err BasicTrajectory :=
  if params.waypoints.length < 2 then .error .invalidParams
  else
    let waypoints := params.waypoints
    let n := params.seg_count
    let ds : ℚ := 1 / (n : ℚ)
    let total := pm.len
    let dpi := total / (n : ℚ)
    let wpdt : ℚ := 1 / ((waypoints.length : ℚ) - 1)
    let constraints := (List.range' 1 (waypoints.length - 2)).filterMap fun j =>
      (waypoints.get? j).bind fun w =>
        w.velocity.map fun v => (pm.t2s ((j : ℚ) * wpdt) * total, v)
    let idx := List.range n
    let patht := if params.is_tank then idx.map (fun i : Nat => pm.s2t (ds * (i : ℚ))) else []
    let pathr := if params.is_tank then
        idx.map (fun i : Nat =>
          let t := pm.s2t (ds * (i : ℚ))
          let d := pm.deriv_at t
          let dd := pm.second_deriv_at t
          1 / curvatureQ sqrtQ d.x dd.x d.y dd.y)
      else []
    let headings := idx.map fun i : Nat =>
      let t := pm.s2t (ds * (i : ℚ))
      let d := pm.deriv_at t
      atan2Q d.x d.y
    let mv := if params.is_tank then
        pathr.map (fun r => specs.max_v / (1 + specs.base_width / (2 * |r|)))
      else idx.map fun _ => specs.max_v
    match waypoints.get? 0, waypoints.get? (waypoints.length - 1), headings.get? 0 with
    | some w0, some wLast, some h0 =>
      let m0 := mk4 uninit 0 (w0.velocity.getD 0) 0 h0
      let cx : FwdCtx := ⟨specs, dpi, mv, headings, sqrtQ, uninit⟩
      match fwdLoop cx ⟨[m0], [], [false], constraints⟩ (List.range' 1 (n - 1)) with
      | .error e => .error e
      | .ok st =>
        let revM1 := terminalAdjust (wLast.velocity.getD 0) st.revM
        match revM1, st.revFlags with
        | mLast :: restM, _ :: restF =>
          match bwdLoop specs.max_a dpi sqrtQ mLast restM st.revTd restF with
          | .error e => .error e
          | .ok (bm, btd) =>
            let moments1 := (mLast :: bm).reverse
            let tds := btd.reverse
            let f := match moments1.head? with
              | some mh => if mh.backwards then -mh.heading else mh.heading
              | none => 0
            let moments2 := moments1.map fun m => { m with init_facing := f }
            let momentsF := match moments2 with
              | [] => []
              | a :: ms => a :: integLoop a (ms.zip tds)
            .ok ⟨momentsF, patht, pathr, f, specs, params⟩
        | _, _ => .error .outOfBounds
    | _, _, _ => .error .outOfBounds

/-- Modelled from the spec: `TankDriveMoment` (tankdrivemoment.h, not
under `src/`) stores the per-wheel distances, velocities, accelerations,
plus heading, time and initial facing, as listed in the data model. -/
structure TankDriveMoment where
  l_dist : ℚ
  r_dist : ℚ
  l_vel : ℚ
  r_vel : ℚ
  l_accel : ℚ
  r_accel : ℚ
  heading : ℚ
  time : ℚ
  init_facing : ℚ
deriving DecidableEq

/-- State of the tank-drive derivation loop: moments so far in reverse
order, and the previous sample's wheel positions. -/
structure TankState where
  revM : List TankDriveMoment
  initW : Vec2 × Vec2

/-- One iteration of the tank-drive loop (tankdrivetrajectory.h:37-59):
chord distances of both wheels, the curvature differential, clipping of
both wheel speeds to `±max_v` via `rabs`, and acceleration backfill on
the previous moment. -/
def tankStep (sqrtQ : ℚ → ℚ) (pm : PathM) (traj : BasicTrajectory) (st : TankState)
    (i : Nat) : Except Err TankState :=
  match st.revM with
  | [] => .error .outOfBounds
  | prev :: rest =>
    match traj.moments.get? i, traj.moments.get? (i - 1),
        traj.patht.get? i, traj.pathr.get? i with
    | some mi, some mprev, some ti, some ri =>
      let wheels := pm.wheels_at ti
      let dl := distQ sqrtQ st.initW.1 wheels.1
      let dr := distQ sqrtQ st.initW.2 wheels.2
      let dt := mi.time - mprev.time
      let d := mi.vel / ri * (traj.specs.base_width / 2)
      let lv := rabs (mi.vel - d) traj.specs.max_v
      let rv := rabs (mi.vel + d) traj.specs.max_v
      let dl2 := if lv < 0 then -dl else dl
      let dr2 := if rv < 0 then -dr else dr
      let newM : TankDriveMoment :=
        ⟨prev.l_dist + dl2, prev.r_dist + dr2, lv, rv, 0, 0, mi.heading, mi.time,
         traj.init_facing⟩
      let prev2 := { prev with
        l_accel := (lv - prev.l_vel) / dt, r_accel := (rv - prev.r_vel) / dt }
      .ok ⟨newM :: prev2 :: rest, wheels⟩
    | _, _, _, _ => .error .outOfBounds

/-- The tank-drive loop, iterated over the moment indices `1..n−1`. -/
def tankLoop (sqrtQ : ℚ → ℚ) (pm : PathM) (traj : BasicTrajectory) :
    TankState → List Nat → Except Err TankState
  | st, [] => .ok st
  | st, i :: is =>
    match tankStep sqrtQ pm traj st i with
    | .ok st2 => tankLoop sqrtQ pm traj st2 is
    | .error e => .error e

/-- The data held by a built `TankDriveTrajectory`. -/
structure TankTraj where
  moments : List TankDriveMoment
  init_facing : ℚ

/-- The `TankDriveTrajectory` constructor (tankdrivetrajectory.h:17-60):
reject a non-tank source trajectory, emit the first moment (unclipped
wheel speeds `v ∓ δ` when the start waypoint has a velocity, zeros
otherwise), then run the derivation loop. -/
def tankDriveTrajectory (sqrtQ : ℚ → ℚ) (pm : PathM) (traj : BasicTrajectory) :
    Except Err TankTraj :=
  if traj.params.is_tank = false then .error .invalidParams
  else
    match traj.params.waypoints.get? 0, traj.moments.get? 0 with
    | some w0, some m0 =>
      let firstE : Except Err TankDriveMoment :=
        match w0.velocity with
        | some _ =>
          match traj.pathr.get? 0 with
          | some r0 =>
            let v := m0.vel
            let d := v / r0 * traj.specs.base_width / 2
            .ok ⟨0, 0, v - d, v + d, 0, 0, m0.heading, 0, traj.init_facing⟩
          | none => .error .outOfBounds
        | none => .ok ⟨0, 0, 0, 0, 0, 0, m0.heading, 0, traj.init_facing⟩
      match firstE with
      | .error e => .error e
      | .ok first =>
        let init := pm.wheels_at 0
        match tankLoop sqrtQ pm traj ⟨[first], init⟩
            (List.range' 1 (traj.moments.length - 1)) with
        | .error e => .error e
        | .ok st => .ok ⟨st.revM.reverse, traj.init_facing⟩
    | _, _ => .error .outOfBounds

/-- The fields of a moment that the profiling passes never modify:
distance, heading and time. -/
def mTag (m : BasicMoment) : ℚ × ℚ × ℚ := (m.dist, m.heading, m.time)

theorem fwdFree_tags {cx : FwdCtx} {st2 : FwdState} {i : Nat} {prev : BasicMoment}
    {rest : List BasicMoment} {revTd : List (Option ℚ)} {revFlags : List Bool}
    {cons : List (ℚ × ℚ)}
    (h : fwdFree cx i prev rest revTd revFlags cons = .ok st2) :
    st2.revM.map mTag =
      ((i : ℚ) * cx.dpi, cx.uninit, cx.uninit) :: mTag prev :: rest.map mTag ∧
    st2.revTd.length = revTd.length + 1 ∧
    st2.revFlags.length = revFlags.length + 1 := by
  rcases hmv : cx.mv.get? i with _ | mvi <;>
    rcases hh : cx.headings.get? i with _ | hv <;>
    simp only [fwdFree, hmv, hh] at h
  · exact absurd h (by simp)
  · exact absurd h (by simp)
  · exact absurd h (by simp)
  · split at h <;> [skip; skip] <;> first
    | (split at h <;> (injection h with h; subst h; exact ⟨by simp [mTag, mk4], rfl, rfl⟩))
    | (injection h with h; subst h; exact ⟨by simp [mTag, mk4], rfl, rfl⟩)

theorem fwdStep_tags {cx : FwdCtx} {st st2 : FwdState} {i : Nat}
    (h : fwdStep cx st i = .ok st2) :
    st2.revM.map mTag = ((i : ℚ) * cx.dpi, cx.uninit, cx.uninit) :: st.revM.map mTag ∧
    st2.revTd.length = st.revTd.length + 1 ∧
    st2.revFlags.length = st.revFlags.length + 1 := by
  obtain ⟨revM, revTd, revFlags, cons⟩ := st
  cases revM with
  | nil => exact absurd h (by simp [fwdStep])
  | cons prev rest =>
    cases cons with
    | nil =>
      simp only [fwdStep] at h
      simpa using fwdFree_tags h
    | cons c ctail =>
      obtain ⟨cpos, cvel⟩ := c
      simp only [fwdStep] at h
      split at h
      · split at h
        · split at h
          · exact absurd h (by simp)
          · rcases hh : cx.headings.get? i with _ | hv <;> rw [hh] at h
            · exact absurd h (by simp)
            · injection h with h; subst h
              exact ⟨by simp [mTag, mk4], rfl, rfl⟩
        · rcases hh : cx.headings.get? i with _ | hv <;> rw [hh] at h
          · exact absurd h (by simp)
          · injection h with h; subst h
            exact ⟨by simp [mTag, mk4], rfl, rfl⟩
      · simpa using fwdFree_tags h

theorem fwdLoop_tags {cx : FwdCtx} {st st2 : FwdState} {l : List Nat}
    (h : fwdLoop cx st l = .ok st2) :
    st2.revM.map mTag =
      (l.map (fun i : Nat => ((i : ℚ) * cx.dpi, cx.uninit, cx.uninit))).reverse ++ st.revM.map mTag ∧
    st2.revTd.length = st.revTd.length + l.length ∧
    st2.revFlags.length = st.revFlags.length + l.length := by
  induction l generalizing st with
  | nil =>
    unfold fwdLoop at h
    cases h
    simp
  | cons i is ih =>
    unfold fwdLoop at h
    split at h
    · next st1 hstep =>
      obtain ⟨h1, h2, h3⟩ := fwdStep_tags hstep
      obtain ⟨g1, g2, g3⟩ := ih h
      refine ⟨?_, ?_, ?_⟩
      · rw [g1, h1]
        simp
      · rw [g2, h2, List.length_cons]
        omega
      · rw [g3, h3, List.length_cons]
        omega
    · exact absurd h (by simp)

/-- Invariant of the forward pass: all accumulated velocities, recorded
time deltas, and pending constraint velocities are nonnegative. -/
def FwdInv (st : FwdState) : Prop :=
  (∀ m ∈ st.revM, 0 ≤ m.vel) ∧
  (∀ td ∈ st.revTd, ∀ x ∈ td, 0 ≤ x) ∧
  (∀ c ∈ st.constraints, 0 ≤ c.2)

theorem fwdFree_inv {cx : FwdCtx} {st2 : FwdState} {i : Nat} {prev : BasicMoment}
    {rest : List BasicMoment} {revTd : List (Option ℚ)} {revFlags : List Bool}
    {cons : List (ℚ × ℚ)}
    (hdpi : 0 ≤ cx.dpi) (hma : 0 ≤ cx.specs.max_a)
    (hmv : ∀ x ∈ cx.mv, 0 ≤ x)
    (hs1 : ∀ x, 0 ≤ cx.sqrtQ x)
    (hs2 : ∀ x y, 0 ≤ x → x * x ≤ y → x ≤ cx.sqrtQ y)
    (hprev : 0 ≤ prev.vel) (hrest : ∀ m ∈ rest, 0 ≤ m.vel)
    (htd : ∀ td ∈ revTd, ∀ x ∈ td, 0 ≤ x)
    (hcon : ∀ c ∈ cons, 0 ≤ c.2)
    (h : fwdFree cx i prev rest revTd revFlags cons = .ok st2) : FwdInv st2 := by
  rcases hmvq : cx.mv.get? i with _ | mvi <;>
    rcases hh : cx.headings.get? i with _ | hv <;>
    simp only [fwdFree, hmvq, hh] at h
  · exact absurd h (by simp)
  · exact absurd h (by simp)
  · exact absurd h (by simp)
  · have hmvi : 0 ≤ mvi := hmv _ (List.get?_mem hmvq)
    have h2ad : 0 ≤ 2 * cx.specs.max_a * cx.dpi := by positivity
    split at h
    · next hlt =>
      split at h
      · injection h with h; subst h
        refine ⟨?_, ?_, hcon⟩
        · intro m hm
          simp only [List.mem_cons] at hm
          rcases hm with hm | hm | hm
          · simp [mk4, hm, hmvi]
          · simp [hm]; exact hprev
          · exact hrest m hm
        · intro td htd2 x hx
          simp only [List.mem_cons] at htd2
          rcases htd2 with htd2 | htd2
          · subst htd2
            have hxe : (mvi - prev.vel) /
                ((mvi * mvi - prev.vel * prev.vel) / (2 * cx.dpi)) = x := by simpa using hx
            rw [← hxe]
            have hsq : prev.vel * prev.vel ≤ mvi * mvi :=
              mul_self_le_mul_self hprev (le_of_lt hlt)
            apply div_nonneg (by linarith)
            apply div_nonneg (by linarith) (by linarith)
          · exact htd _ htd2 x hx
      · injection h with h; subst h
        have hmaxv : prev.vel ≤ cx.sqrtQ (prev.vel * prev.vel + 2 * cx.specs.max_a * cx.dpi) :=
          hs2 _ _ hprev (by linarith)
        refine ⟨?_, ?_, hcon⟩
        · intro m hm
          simp only [List.mem_cons] at hm
          rcases hm with hm | hm | hm
          · simp [mk4, hm]; exact hs1 _
          · simp [hm]; exact hprev
          · exact hrest m hm
        · intro td htd2 x hx
          simp only [List.mem_cons] at htd2
          rcases htd2 with htd2 | htd2
          · subst htd2
            have hxe : (cx.sqrtQ (prev.vel * prev.vel + 2 * cx.specs.max_a * cx.dpi)
                - prev.vel) / cx.specs.max_a = x := by simpa using hx
            rw [← hxe]
            exact div_nonneg (by linarith) hma
          · exact htd _ htd2 x hx
    · injection h with h; subst h
      refine ⟨?_, ?_, hcon⟩
      · intro m hm
        simp only [List.mem_cons] at hm
        rcases hm with hm | hm | hm
        · simp [mk4, hm, hmvi]
        · simp [hm]; exact hprev
        · exact hrest m hm
      · intro td htd2 x hx
        simp only [List.mem_cons] at htd2
        rcases htd2 with htd2 | htd2
        · subst htd2; simp at hx
        · exact htd _ htd2 x hx

theorem fwdStep_inv {cx : FwdCtx} {st st2 : FwdState} {i : Nat}
    (hdpi : 0 ≤ cx.dpi) (hma : 0 ≤ cx.specs.max_a)
    (hmv : ∀ x ∈ cx.mv, 0 ≤ x)
    (hs1 : ∀ x, 0 ≤ cx.sqrtQ x)
    (hs2 : ∀ x y, 0 ≤ x → x * x ≤ y → x ≤ cx.sqrtQ y)
    (hinv : FwdInv st) (h : fwdStep cx st i = .ok st2) : FwdInv st2 := by
  obtain ⟨revM, revTd, revFlags, cons⟩ := st
  obtain ⟨hvel, htd, hcon⟩ := hinv
  cases revM with
  | nil => exact absurd h (by simp [fwdStep])
  | cons prev rest =>
    have hprev : 0 ≤ prev.vel := hvel _ (by simp)
    have hrest : ∀ m ∈ rest, 0 ≤ m.vel := fun m hm => hvel m (by simp [hm])
    cases cons with
    | nil =>
      simp only [fwdStep] at h
      exact fwdFree_inv hdpi hma hmv hs1 hs2 hprev hrest (fun td h2 => htd td h2)
        (fun c hc => hcon c hc) h
    | cons c ctail =>
      obtain ⟨cpos, cvel⟩ := c
      have hcv : 0 ≤ cvel := by simpa using hcon (cpos, cvel) (by simp)
      have hctail : ∀ c2 ∈ ctail, 0 ≤ c2.2 := fun c2 hc => hcon c2 (by simp [hc])
      simp only [fwdStep] at h
      split at h
      · split at h
        · next hgt =>
          split at h
          · exact absurd h (by simp)
          · rcases hh : cx.headings.get? i with _ | hv <;> rw [hh] at h
            · exact absurd h (by simp)
            · injection h with h; subst h
              refine ⟨?_, ?_, hctail⟩
              · intro m hm
                simp only [List.mem_cons] at hm
                rcases hm with hm | hm | hm
                · simp [mk4, hm, hcv]
                · simp [hm]; exact hprev
                · exact hrest m hm
              · intro td htd2 x hx
                simp only [List.mem_cons] at htd2
                rcases htd2 with htd2 | htd2
                · subst htd2
                  have hxe : (cvel - prev.vel) /
                      (cvel * cvel - prev.vel * prev.vel) = x := by simpa using hx
                  rw [← hxe]
                  have hsq : prev.vel * prev.vel ≤ cvel * cvel :=
                    mul_self_le_mul_self hprev (le_of_lt hgt)
                  exact div_nonneg (by linarith) (by linarith)
                · exact htd _ htd2 x hx
        · rcases hh : cx.headings.get? i with _ | hv <;> rw [hh] at h
          · exact absurd h (by simp)
          · injection h with h; subst h
            refine ⟨?_, ?_, hctail⟩
            · intro m hm
              simp only [List.mem_cons] at hm
              rcases hm with hm | hm | hm
              · simp [mk4, hm, hcv]
              · simp [hm]; exact hprev
              · exact hrest m hm
            · intro td htd2 x hx
              simp only [List.mem_cons] at htd2
              rcases htd2 with htd2 | htd2
              · subst htd2; simp at hx
              · exact htd _ htd2 x hx
      · exact fwdFree_inv hdpi hma hmv hs1 hs2 hprev hrest (fun td h2 => htd td h2)
          (fun c2 hc => hcon c2 hc) h

theorem fwdLoop_inv {cx : FwdCtx} {st st2 : FwdState} {l : List Nat}
    (hdpi : 0 ≤ cx.dpi) (hma : 0 ≤ cx.specs.max_a)
    (hmv : ∀ x ∈ cx.mv, 0 ≤ x)
    (hs1 : ∀ x, 0 ≤ cx.sqrtQ x)
    (hs2 : ∀ x y, 0 ≤ x → x * x ≤ y → x ≤ cx.sqrtQ y)
    (hinv : FwdInv st) (h : fwdLoop cx st l = .ok st2) : FwdInv st2 := by
  induction l generalizing st with
  | nil =>
    unfold fwdLoop at h
    cases h
    exact hinv
  | cons i is ih =>
    unfold fwdLoop at h
    split at h
    · next st1 hstep =>
      exact ih (fwdStep_inv hdpi hma hmv hs1 hs2 hinv hstep) h
    · exact absurd h (by simp)

theorem div_nonneg_of_np {a b : ℚ} (ha : a ≤ 0) (hb : b ≤ 0) : 0 ≤ a / b := by
  rw [← neg_div_neg_eq]
  exact div_nonneg (by linarith) (by linarith)

theorem terminalAdjust_map_mTag (endVel : ℚ) (l : List BasicMoment) :
    (terminalAdjust endVel l).map mTag = l.map mTag := by
  cases l <;> simp [terminalAdjust, mTag]

theorem terminalAdjust_vel {endVel : ℚ} {l : List BasicMoment}
    (he : 0 ≤ endVel) (hl : ∀ m ∈ l, 0 ≤ m.vel) :
    ∀ m ∈ terminalAdjust endVel l, 0 ≤ m.vel := by
  cases l with
  | nil => simp [terminalAdjust]
  | cons a t =>
    intro m hm
    simp only [terminalAdjust, List.mem_cons] at hm
    rcases hm with hm | hm
    · simp [hm, he]
    · exact hl m (by simp [hm])

theorem bwdStep_props {max_a dpi : ℚ} {sqrtQ : ℚ → ℚ} {next m : BasicMoment}
    {td : Option ℚ} {flag : Bool} {m2 : BasicMoment} {td2 : Option ℚ}
    (hdpi : 0 ≤ dpi) (hma : 0 ≤ max_a)
    (hs1 : ∀ x, 0 ≤ sqrtQ x)
    (hs2 : ∀ x y, 0 ≤ x → x * x ≤ y → x ≤ sqrtQ y)
    (hnext : 0 ≤ next.vel) (hm : 0 ≤ m.vel) (htd : ∀ x ∈ td, 0 ≤ x)
    (h : bwdStep max_a dpi sqrtQ next m td flag = .ok (m2, td2)) :
    mTag m2 = mTag m ∧ 0 ≤ m2.vel ∧ (∀ x ∈ td2, 0 ≤ x) := by
  unfold bwdStep at h
  split at h
  · next hgt =>
    have hsq : next.vel * next.vel ≤ m.vel * m.vel :=
      mul_self_le_mul_self hnext (le_of_lt hgt)
    split at h
    · injection h with h
      rw [Prod.mk.injEq] at h
      obtain ⟨h1, h2⟩ := h
      subst h1; subst h2
      refine ⟨by simp [mTag], by simp [hm], ?_⟩
      intro x hx
      have hxe : (next.vel - m.vel) /
          -((m.vel * m.vel - next.vel * next.vel) / (2 * dpi)) = x := by simpa using hx
      rw [← hxe]
      exact div_nonneg_of_np (by linarith)
        (neg_nonpos.mpr (div_nonneg (by linarith) (by linarith)))
    · split at h
      · exact absurd h (by simp)
      · injection h with h
        rw [Prod.mk.injEq] at h
        obtain ⟨h1, h2⟩ := h
        subst h1; subst h2
        have h2ad : 0 ≤ 2 * max_a * dpi := by positivity
        have hmaxv : next.vel ≤ sqrtQ (next.vel * next.vel + 2 * max_a * dpi) :=
          hs2 _ _ hnext (by linarith)
        refine ⟨by simp [mTag], by simp [hs1 _], ?_⟩
        intro x hx
        have hxe : (next.vel - sqrtQ (next.vel * next.vel + 2 * max_a * dpi)) /
            -max_a = x := by simpa using hx
        rw [← hxe]
        exact div_nonneg_of_np (by linarith) (by linarith)
  · injection h with h
    rw [Prod.mk.injEq] at h
    obtain ⟨h1, h2⟩ := h
    subst h1; subst h2
    exact ⟨rfl, hm, htd⟩

theorem bwdLoop_props {max_a dpi : ℚ} {sqrtQ : ℚ → ℚ}
    (hdpi : 0 ≤ dpi) (hma : 0 ≤ max_a)
    (hs1 : ∀ x, 0 ≤ sqrtQ x)
    (hs2 : ∀ x y, 0 ≤ x → x * x ≤ y → x ≤ sqrtQ y) :
    ∀ {ms : List BasicMoment} {next : BasicMoment} {tds : List (Option ℚ)}
      {fs : List Bool} {ms2 : List BasicMoment} {tds2 : List (Option ℚ)},
      0 ≤ next.vel → (∀ m ∈ ms, 0 ≤ m.vel) → (∀ td ∈ tds, ∀ x ∈ td, 0 ≤ x) →
      bwdLoop max_a dpi sqrtQ next ms tds fs = .ok (ms2, tds2) →
      ms2.map mTag = ms.map mTag ∧ (∀ m ∈ ms2, 0 ≤ m.vel) ∧
      (∀ td ∈ tds2, ∀ x ∈ td, 0 ≤ x) ∧ ms2.length = ms.length ∧
      tds2.length = ms.length := by
  intro ms
  induction ms with
  | nil =>
    intro next tds fs ms2 tds2 _ _ _ h
    unfold bwdLoop at h
    injection h with h
    rw [Prod.mk.injEq] at h
    obtain ⟨h1, h2⟩ := h
    subst h1; subst h2
    simp
  | cons m mrest ih =>
    intro next tds fs ms2 tds2 hnext hms htds h
    cases tds with
    | nil => exact absurd h (by simp [bwdLoop])
    | cons td tdrest =>
      cases fs with
      | nil => exact absurd h (by simp [bwdLoop])
      | cons f frest =>
        simp only [bwdLoop] at h
        split at h
        · exact absurd h (by simp)
        · next m2 td2 hstep =>
          split at h
          · exact absurd h (by simp)
          · next ms2' tds2' hrec =>
            injection h with h
            rw [Prod.mk.injEq] at h
            obtain ⟨h1, h2⟩ := h
            subst h1; subst h2
            obtain ⟨htag, hvel2, htd2⟩ := bwdStep_props hdpi hma hs1 hs2 hnext
              (hms m (by simp)) (fun x hx => htds td (by simp) x hx) hstep
            obtain ⟨g1, g2, g3, g4, g5⟩ := ih hvel2 (fun m3 hm3 => hms m3 (by simp [hm3]))
              (fun td3 h3 x hx => htds td3 (by simp [h3]) x hx) hrec
            refine ⟨by simp [g1, htag], ?_, ?_, by simp [g4], by simp [g5]⟩
            · intro m3 hm3
              simp only [List.mem_cons] at hm3
              rcases hm3 with hm3 | hm3
              · subst hm3; exact hvel2
              · exact g2 m3 hm3
            · intro td3 h3 x hx
              simp only [List.mem_cons] at h3
              rcases h3 with h3 | h3
              · subst h3; exact htd2 x hx
              · exact g3 td3 h3 x hx

theorem bwdStep_tag {max_a dpi : ℚ} {sqrtQ : ℚ → ℚ} {next m : BasicMoment}
    {td : Option ℚ} {flag : Bool} {m2 : BasicMoment} {td2 : Option ℚ}
    (h : bwdStep max_a dpi sqrtQ next m td flag = .ok (m2, td2)) : mTag m2 = mTag m := by
  unfold bwdStep at h
  split at h
  · split at h
    · injection h with h
      rw [Prod.mk.injEq] at h
      obtain ⟨h1, _⟩ := h
      subst h1
      simp [mTag]
    · split at h
      · exact absurd h (by simp)
      · injection h with h
        rw [Prod.mk.injEq] at h
        obtain ⟨h1, _⟩ := h
        subst h1
        simp [mTag]
  · injection h with h
    rw [Prod.mk.injEq] at h
    obtain ⟨h1, _⟩ := h
    subst h1
    rfl

theorem bwdLoop_tags {max_a dpi : ℚ} {sqrtQ : ℚ → ℚ} :
    ∀ {ms : List BasicMoment} {next : BasicMoment} {tds : List (Option ℚ)}
      {fs : List Bool} {ms2 : List BasicMoment} {tds2 : List (Option ℚ)},
      bwdLoop max_a dpi sqrtQ next ms tds fs = .ok (ms2, tds2) →
      ms2.map mTag = ms.map mTag ∧ tds2.length = ms.length := by
  intro ms
  induction ms with
  | nil =>
    intro next tds fs ms2 tds2 h
    unfold bwdLoop at h
    injection h with h
    rw [Prod.mk.injEq] at h
    obtain ⟨h1, h2⟩ := h
    subst h1; subst h2
    simp
  | cons m mrest ih =>
    intro next tds fs ms2 tds2 h
    cases tds with
    | nil => exact absurd h (by simp [bwdLoop])
    | cons td tdrest =>
      cases fs with
      | nil => exact absurd h (by simp [bwdLoop])
      | cons f frest =>
        simp only [bwdLoop] at h
        split at h
        · exact absurd h (by simp)
        · next m2 td2 hstep =>
          split at h
          · exact absurd h (by simp)
          · next ms2' tds2' hrec =>
            injection h with h
            rw [Prod.mk.injEq] at h
            obtain ⟨h1, h2⟩ := h
            subst h1; subst h2
            obtain ⟨g1, g2⟩ := ih hrec
            exact ⟨by simp [g1, bwdStep_tag hstep], by simp [g2]⟩

theorem integLoop_dist_map (prev : BasicMoment) (l : List (BasicMoment × Option ℚ)) :
    (integLoop prev l).map (·.dist) = l.map (fun p => p.1.dist) := by
  induction l generalizing prev with
  | nil => simp [integLoop]
  | cons p rest ih =>
    obtain ⟨m, td⟩ := p
    simp [integLoop, ih]

theorem integLoop_heading {u : ℚ} (prev : BasicMoment) (l : List (BasicMoment × Option ℚ))
    (hl : ∀ p ∈ l, p.1.heading = u) : ∀ m ∈ integLoop prev l, m.heading = u := by
  induction l generalizing prev with
  | nil => simp [integLoop]
  | cons p rest ih =>
    obtain ⟨m, td⟩ := p
    intro m2 hm2
    simp only [integLoop, List.mem_cons] at hm2
    rcases hm2 with hm2 | hm2
    · rw [hm2]
      exact hl (m, td) (by simp)
    · exact ih _ (fun p hp => hl p (by simp [hp])) m2 hm2

theorem integLoop_chain (l : List (BasicMoment × Option ℚ)) :
    ∀ (prev : BasicMoment), 0 ≤ prev.vel → (∀ p ∈ l, 0 ≤ p.1.vel) →
    List.Chain' (· ≤ ·) (prev.dist :: l.map (fun p => p.1.dist)) →
    (∀ p ∈ l, ∀ x ∈ p.2, 0 ≤ x) →
    List.Chain' (fun a b => a.dist ≤ b.dist ∧ a.time ≤ b.time) (prev :: integLoop prev l) := by
  induction l with
  | nil => simp [integLoop]
  | cons p rest ih =>
    obtain ⟨m, td⟩ := p
    intro prev hv hvl hd htd
    rw [List.map_cons, List.chain'_cons] at hd
    obtain ⟨hd1, hd2⟩ := hd
    cases td with
    | some x =>
      have hdt : 0 ≤ x := htd (m, some x) (by simp) x (by simp)
      simp only [integLoop]
      rw [List.chain'_cons]
      constructor
      · exact ⟨by simpa using hd1, by simp; linarith⟩
      · have := ih { m with time := prev.time + x }
          (by simpa using hvl (m, some x) (by simp))
          (fun p hp => hvl p (by simp [hp]))
          (by simpa using hd2)
          (fun p hp x2 hx2 => htd p (by simp [hp]) x2 hx2)
        simpa using this
    | none =>
      have hdt : 0 ≤ (m.dist - prev.dist) / prev.vel := div_nonneg (by linarith) hv
      simp only [integLoop]
      rw [List.chain'_cons]
      constructor
      · exact ⟨by simpa using hd1, by simp; linarith⟩
      · have := ih { m with time := prev.time + (m.dist - prev.dist) / prev.vel }
          (by simpa using hvl (m, none) (by simp))
          (fun p hp => hvl p (by simp [hp]))
          (by simpa using hd2)
          (fun p hp x2 hx2 => htd p (by simp [hp]) x2 hx2)
        simpa using this

theorem chain_mul_range' (c : ℚ) (hc : 0 ≤ c) :
    ∀ (k a : Nat), List.Chain' (· ≤ ·) ((List.range' a k).map (fun i : Nat => (i : ℚ) * c)) := by
  intro k
  induction k with
  | zero => simp
  | succ k ih =>
    intro a
    rw [List.range'_succ, List.map_cons]
    cases k with
    | zero => simp
    | succ k2 =>
      rw [List.range'_succ, List.map_cons, List.chain'_cons]
      refine ⟨?_, by simpa [List.range'_succ] using ih (a + 1)⟩
      have : ((a + 1 : Nat) : ℚ) = (a : ℚ) + 1 := by push_cast; ring
      rw [this]
      nlinarith

theorem chain_zero_mul_range' (c : ℚ) (hc : 0 ≤ c) (k : Nat) :
    List.Chain' (· ≤ ·) ((0 : ℚ) :: (List.range' 1 k).map (fun i : Nat => (i : ℚ) * c)) := by
  cases k with
  | zero => simp
  | succ k2 =>
    rw [List.range'_succ, List.map_cons, List.chain'_cons]
    refine ⟨by simpa using hc, by simpa [List.range'_succ] using chain_mul_range' c hc (k2 + 1) 1⟩

theorem constraints_vel_nonneg {waypoints : List Waypoint} {g : Nat → ℚ} {k : Nat}
    (hwp : ∀ w ∈ waypoints, ∀ v ∈ w.velocity, 0 ≤ v) :
    ∀ c ∈ (List.range' 1 k).filterMap (fun j =>
      (waypoints.get? j).bind fun w => w.velocity.map fun v => (g j, v)), 0 ≤ c.2 := by
  intro c hc
  rw [List.mem_filterMap] at hc
  obtain ⟨j, _, hj⟩ := hc
  rcases hw : waypoints.get? j with _ | w
  · rw [hw] at hj; simp at hj
  · rw [hw] at hj
    simp only [Option.some_bind] at hj
    rcases hv : w.velocity with _ | v
    · rw [hv] at hj; simp at hj
    · rw [hv] at hj
      simp only [Option.map_some'] at hj
      injection hj with hj
      subst hj
      exact hwp w (List.get?_mem hw) v (by simp [hv])

theorem map_facing_mTag (f : ℚ) (l : List BasicMoment) :
    (l.map (fun m => { m with init_facing := f })).map mTag = l.map mTag := by
  rw [List.map_map]
  congr 1

/-- Structure of a successfully built `BasicTrajectory`: every moment's
`heading` field is the uninitialized value (the constructors of
`BasicMoment` never assign it), the first moment's `time` is likewise
uninitialized and its `dist` is `0`, and the stored distances are the
sampling grid `i · dpi`. -/
theorem basicTrajectory_shape {sqrtQ : ℚ → ℚ} {atan2Q : ℚ → ℚ → ℚ} {uninit : ℚ}
    {pm : PathM} {specs : RobotSpecs} {params : TrajectoryParams} {bt : BasicTrajectory}
    (h : basicTrajectory sqrtQ atan2Q uninit pm specs params = .ok bt) :
    (∀ m ∈ bt.moments, m.heading = uninit) ∧
    (∃ a, bt.moments.head? = some a ∧ a.time = uninit ∧ a.dist = 0) ∧
    bt.moments.map (·.dist) =
      (0 : ℚ) :: (List.range' 1 (params.seg_count - 1)).map
        (fun i : Nat => (i : ℚ) * (pm.len / (params.seg_count : ℚ))) := by
  simp only [basicTrajectory] at h
  split at h
  · exact Except.noConfusion h
  split at h
  any_goals exact Except.noConfusion h
  rename_i w0 wLast h0 hw0 hwL hh0
  split at h
  any_goals exact Except.noConfusion h
  rename_i st hfwd
  split at h
  any_goals exact Except.noConfusion h
  rename_i mLast restM f0 restF hterm hflags
  split at h
  any_goals exact Except.noConfusion h
  rename_i bm btd hbwd
  injection h with h
  subst h
  obtain ⟨hst, _, _⟩ := fwdLoop_tags hfwd
  have hm0tag : mTag (mk4 uninit 0 (w0.velocity.getD 0) 0 h0) = (0, uninit, uninit) := by
    simp [mTag, mk4]
  rw [List.map_cons, List.map_nil, hm0tag] at hst
  have hterm2 : (mLast :: restM).map mTag = st.revM.map mTag := by
    rw [← hterm, terminalAdjust_map_mTag]
  obtain ⟨hbm, hbtdlen⟩ := bwdLoop_tags hbwd
  have hm1 : ((mLast :: bm).reverse).map mTag =
      (0, uninit, uninit) :: (List.range' 1 (params.seg_count - 1)).map
        (fun i : Nat => ((i : ℚ) * (pm.len / (params.seg_count : ℚ)), uninit, uninit)) := by
    rw [List.map_reverse, List.map_cons, hbm, ← List.map_cons mTag mLast restM, hterm2, hst]
    simp
  have hlen : restM.length = bm.length := by
    have := congrArg List.length hbm
    simpa using this.symm
  set fgoal := (match ((mLast :: bm).reverse).head? with
    | some mh => if mh.backwards then -mh.heading else mh.heading
    | none => 0 : ℚ) with hf
  have hm2 : (((mLast :: bm).reverse).map (fun m => { m with init_facing := fgoal })).map mTag =
      (0, uninit, uninit) :: (List.range' 1 (params.seg_count - 1)).map
        (fun i : Nat => ((i : ℚ) * (pm.len / (params.seg_count : ℚ)), uninit, uninit)) := by
    rw [map_facing_mTag, hm1]
  rcases hmom : ((mLast :: bm).reverse).map (fun m => { m with init_facing := fgoal }) with
    _ | ⟨a, ms⟩
  · rw [hmom] at hm2; simp at hm2
  · rw [hmom] at hm2
    rw [List.map_cons] at hm2
    injection hm2 with hma hms
    simp only [mTag, Prod.mk.injEq] at hma
    obtain ⟨had, hah, hat⟩ := hma
    have hmslen : bm.length = ms.length := by
      have := congrArg List.length hmom
      simpa using this
    have htdslen : ms.length ≤ (btd.reverse).length := by
      rw [List.length_reverse, hbtdlen, hlen, hmslen]
    have hmsheads : ∀ m ∈ ms, m.heading = uninit := by
      intro m hm
      have h1 : mTag m ∈ ms.map mTag := List.mem_map_of_mem mTag hm
      rw [hms] at h1
      rw [List.mem_map] at h1
      obtain ⟨i, _, hi⟩ := h1
      have := congrArg (fun p => p.2.1) hi
      simpa [mTag] using this.symm
    have hmsdist : ms.map (·.dist) = (List.range' 1 (params.seg_count - 1)).map
        (fun i : Nat => (i : ℚ) * (pm.len / (params.seg_count : ℚ))) := by
      have h1 : ms.map (·.dist) = (ms.map mTag).map (·.1) := by
        rw [List.map_map]; rfl
      rw [h1, hms, List.map_map]
      rfl
    have hzipdist : (ms.zip btd.reverse).map (fun p => p.1.dist) = ms.map (·.dist) := by
      have h1 : (ms.zip btd.reverse).map (fun p => p.1.dist) =
          ((ms.zip btd.reverse).map Prod.fst).map (·.dist) := by
        rw [List.map_map]; rfl
      rw [h1, List.map_fst_zip ms btd.reverse htdslen]
    rw [hmom]
    refine ⟨?_, ⟨a, rfl, hat, had⟩, ?_⟩
    · intro m hm
      simp only [List.mem_cons] at hm
      rcases hm with hm | hm
      · rw [hm]; exact hah
      · refine integLoop_heading a (ms.zip btd.reverse) ?_ m hm
        intro p hp
        exact hmsheads p.1 (List.of_mem_zip hp).1
    · rw [List.map_cons, integLoop_dist_map, hzipdist, hmsdist, had]

/-- A simple abstract path: identity reparameterization, unit upward
derivative, no curvature, total length 10. -/
def pmLine : PathM :=
  ⟨fun x => x, fun x => x, fun _ => ⟨0, 1⟩, fun _ => ⟨0, 0⟩, fun _ => (⟨0, 0⟩, ⟨0, 0⟩), 10⟩

/-- Placeholder trajectory used to project `Except` results in closed
statements. -/
def dummyBT : BasicTrajectory := ⟨[], [], [], 0, ⟨0, 0, 0⟩, ⟨[], 0, 0, false⟩⟩

/-- Robot limits for the concrete runs: `max_v = 5`, `max_a = 2`,
`base_width = 1`. -/
def specsW : RobotSpecs := ⟨5, 2, 1⟩

/-- Two waypoints 10 units apart with unset start and end velocities,
sampled at 2 segments, non-tank. -/
def paramsW : TrajectoryParams := ⟨[⟨0, 0, 0, none⟩, ⟨0, 10, 0, none⟩], 0, 2, false⟩

/-- Like `paramsW` but with start velocity `1` and end velocity `−2`. -/
def paramsC3 : TrajectoryParams := ⟨[⟨0, 0, 0, some 1⟩, ⟨0, 10, 0, some (-2)⟩], 0, 2, false⟩

/-- C2.  The `BasicMoment` constructors accept a heading argument but
never assign the `heading` field (basicmoment.h:10-13), so every stored
moment's `heading` equals the indeterminate value of an uninitialized
`double` — for every input whatsoever, rather than the tangent direction
`atan2(dx, dy)` computed into the discarded argument. -/
theorem moment_heading_never_assigned (sqrtQ : ℚ → ℚ) (atan2Q : ℚ → ℚ → ℚ)
    (uninit : ℚ) (pm : PathM) (specs : RobotSpecs) (params : TrajectoryParams)
    (bt : BasicTrajectory)
    (h : basicTrajectory sqrtQ atan2Q uninit pm specs params = .ok bt) :
    ∀ m ∈ bt.moments, m.heading = uninit :=
  (basicTrajectory_shape h).1

/-- Witness for `moment_heading_never_assigned`: a concrete run in which
`atan2` always returns `7` yet every stored heading equals the
uninitialized value `5`. -/
theorem moment_heading_never_assigned_witness :
    (basicTrajectory sqrtUp (fun _ _ => (7 : ℚ)) 5 pmLine specsW paramsW).isOk = true ∧
    (5 : ℚ) ≠ 7 ∧
    ∀ m ∈ ((basicTrajectory sqrtUp (fun _ _ => (7 : ℚ)) 5 pmLine specsW
        paramsW).toOption.getD dummyBT).moments, m.heading = 5 :=
  ⟨by with_unfolding_all rfl, by norm_num,
    moment_heading_never_assigned sqrtUp (fun _ _ => (7 : ℚ)) 5 pmLine specsW paramsW _ (by with_unfolding_all rfl)⟩

/-- C5.  The first moment's `time` field is never assigned: the
4-argument `BasicMoment` constructor used for moment 0 leaves `time`
indeterminate and the time-integration loop starts at index 1, so
`moments[0].time` equals the uninitialized value, not `0`. -/
theorem first_moment_time_never_assigned (sqrtQ : ℚ → ℚ) (atan2Q : ℚ → ℚ → ℚ)
    (uninit : ℚ) (pm : PathM) (specs : RobotSpecs) (params : TrajectoryParams)
    (bt : BasicTrajectory)
    (h : basicTrajectory sqrtQ atan2Q uninit pm specs params = .ok bt) :
    ∃ a, bt.moments.head? = some a ∧ a.time = uninit := by
  obtain ⟨a, h1, h2, _⟩ := (basicTrajectory_shape h).2.1
  exact ⟨a, h1, h2⟩

/-- Witness for `first_moment_time_never_assigned`: a run whose
uninitialized value is `1`, so the first moment's time is `1 ≠ 0`. -/
theorem first_moment_time_never_assigned_witness :
    (basicTrajectory sqrtUp (fun _ _ => (0 : ℚ)) 1 pmLine specsW paramsW).isOk = true ∧
    (1 : ℚ) ≠ 0 ∧
    ∃ a, ((basicTrajectory sqrtUp (fun _ _ => (0 : ℚ)) 1 pmLine specsW
        paramsW).toOption.getD dummyBT).moments.head? = some a ∧ a.time = 1 :=
  ⟨by with_unfolding_all rfl, by norm_num,
    first_moment_time_never_assigned sqrtUp (fun _ _ => (0 : ℚ)) 1 pmLine specsW paramsW _ (by with_unfolding_all rfl)⟩

/-- C4.  When the forward pass consumes a waypoint velocity constraint
`(cpos, cvel)` at a sample whose previous moment has velocity below
`cvel`, the step fails with the constraint-infeasible error exactly when
the raw squared-velocity difference `cvel² − v_prev²` exceeds `max_a` —
the comparison is made without dividing by `2·dpi`
(basictrajectory.h:89-91). -/
theorem constraint_consumption_infeasible_iff (cx : FwdCtx) (st : FwdState) (i : Nat)
    (prev : BasicMoment) (rest : List BasicMoment) (cpos cvel : ℚ)
    (ctail : List (ℚ × ℚ))
    (hm : st.revM = prev :: rest) (hc : st.constraints = (cpos, cvel) :: ctail)
    (hd : (i : ℚ) * cx.dpi ≥ cpos) (hv : cvel > prev.vel) :
    (fwdStep cx st i = .error .constraintInfeasible ↔
      cvel * cvel - prev.vel * prev.vel > cx.specs.max_a) := by
  obtain ⟨revM, revTd, revFlags, cons⟩ := st
  simp only at hm hc
  subst hm
  subst hc
  simp only [fwdStep]
  rw [if_pos hd, if_pos hv]
  by_cases hacc : cvel * cvel - prev.vel * prev.vel > cx.specs.max_a
  · rw [if_pos hacc]
    simp [hacc]
  · rw [if_neg hacc]
    rcases cx.headings.get? i with _ | hv2 <;> simp [hacc]

/-- The state fed to the witness of
`constraint_consumption_infeasible_iff`. -/
def stW : FwdState := ⟨[⟨0, 1, 0, 0, 0, 0, false⟩], [], [false], [(2, 3)]⟩

/-- The context fed to the witness of
`constraint_consumption_infeasible_iff`. -/
def cxW : FwdCtx := ⟨⟨5, 2, 1⟩, 5, [], [], sqrtUp, 0⟩

/-- Witness for `constraint_consumption_infeasible_iff`: with
`v* = 3 > v_prev = 1` and `max_a = 2`, the raw difference `9 − 1 = 8`
exceeds `max_a`, and the step indeed fails. -/
theorem constraint_consumption_infeasible_iff_witness :
    (fwdStep cxW stW 1 = .error .constraintInfeasible ↔
      (3 : ℚ) * 3 - (1 : ℚ) * 1 > (2 : ℚ)) ∧
    fwdStep cxW stW 1 = .error .constraintInfeasible :=
  ⟨constraint_consumption_infeasible_iff cxW stW 1 ⟨0, 1, 0, 0, 0, 0, false⟩ [] 2 3 []
      rfl rfl (by norm_num [cxW]) (by norm_num),
    by with_unfolding_all rfl⟩

theorem fwdStep_ne_invalid (cx : FwdCtx) (st : FwdState) (i : Nat) :
    fwdStep cx st i ≠ .error .invalidParams := by
  obtain ⟨revM, revTd, revFlags, cons⟩ := st
  cases revM with
  | nil => simp [fwdStep]
  | cons prev rest =>
    cases cons with
    | nil =>
      simp only [fwdStep, fwdFree]
      repeat' split
      all_goals simp
    | cons c ctail =>
      obtain ⟨cpos, cvel⟩ := c
      simp only [fwdStep, fwdFree]
      repeat' split
      all_goals simp

theorem fwdLoop_ne_invalid (cx : FwdCtx) (st : FwdState) (l : List Nat) :
    fwdLoop cx st l ≠ .error .invalidParams := by
  induction l generalizing st with
  | nil => simp [fwdLoop]
  | cons i is ih =>
    simp only [fwdLoop]
    split
    · exact ih _
    · next e heq =>
      intro hc
      injection hc with hc
      subst hc
      exact fwdStep_ne_invalid cx _ i heq

theorem bwdStep_ne_invalid (max_a dpi : ℚ) (sqrtQ : ℚ → ℚ) (next m : BasicMoment)
    (td : Option ℚ) (flag : Bool) :
    bwdStep max_a dpi sqrtQ next m td flag ≠ .error .invalidParams := by
  simp only [bwdStep]
  repeat' split
  all_goals simp

theorem bwdLoop_ne_invalid (max_a dpi : ℚ) (sqrtQ : ℚ → ℚ) :
    ∀ (ms : List BasicMoment) (next : BasicMoment) (tds : List (Option ℚ))
      (fs : List Bool),
      bwdLoop max_a dpi sqrtQ next ms tds fs ≠ .error .invalidParams := by
  intro ms
  induction ms with
  | nil =>
    intro next tds fs
    simp [bwdLoop]
  | cons m mrest ih =>
    intro next tds fs
    cases tds with
    | nil => simp [bwdLoop]
    | cons td tdrest =>
      cases fs with
      | nil => simp [bwdLoop]
      | cons f frest =>
        simp only [bwdLoop]
        split
        · next e heq =>
          intro hc
          injection hc with hc
          subst hc
          exact bwdStep_ne_invalid max_a dpi sqrtQ next m td f heq
        · next m2 td2 heq =>
          split
          · next e heq2 =>
            intro hc
            injection hc with hc
            subst hc
            exact ih m2 tdrest frest heq2
          · simp

/-- C8 (first half).  The `BasicTrajectory` constructor raises
`InvalidParams` exactly when fewer than two waypoints are supplied (a
check modelled from the spec, belonging to the `Path` construction whose
source is not under `src/`).  In particular `seg_count = 0` and
non-positive `max_v`, `max_a` or `base_width` are never rejected with
`InvalidParams` — the constructor body performs no such validation. -/
theorem basicTrajectory_invalidParams_iff (sqrtQ : ℚ → ℚ) (atan2Q : ℚ → ℚ → ℚ)
    (uninit : ℚ) (pm : PathM) (specs : RobotSpecs) (params : TrajectoryParams) :
    basicTrajectory sqrtQ atan2Q uninit pm specs params = .error .invalidParams ↔
    params.waypoints.length < 2 := by
  constructor
  · intro h
    by_contra hlen
    simp only [basicTrajectory] at h
    rw [if_neg hlen] at h
    split at h
    any_goals (injection h with h; exact Err.noConfusion h)
    split at h
    · next e heq =>
      injection h with h
      subst h
      exact fwdLoop_ne_invalid _ _ _ heq
    · split at h
      any_goals (injection h with h; exact Err.noConfusion h)
      split at h
      · next e heq =>
        injection h with h
        subst h
        exact bwdLoop_ne_invalid _ _ _ _ _ _ _ heq
      · exact Except.noConfusion h
  · intro hlen
    simp only [basicTrajectory]
    rw [if_pos hlen]

theorem tankStep_ne_invalid (sqrtQ : ℚ → ℚ) (pm : PathM) (traj : BasicTrajectory)
    (st : TankState) (i : Nat) : tankStep sqrtQ pm traj st i ≠ .error .invalidParams := by
  obtain ⟨revM, initW⟩ := st
  cases revM with
  | nil => simp [tankStep]
  | cons prev rest =>
    simp only [tankStep]
    repeat' split
    all_goals simp

theorem tankLoop_ne_invalid (sqrtQ : ℚ → ℚ) (pm : PathM) (traj : BasicTrajectory) :
    ∀ (l : List Nat) (st : TankState),
      tankLoop sqrtQ pm traj st l ≠ .error .invalidParams := by
  intro l
  induction l with
  | nil =>
    intro st
    simp [tankLoop]
  | cons i is ih =>
    intro st
    simp only [tankLoop]
    split
    · exact ih _
    · next e heq =>
      intro hc
      injection hc with hc
      subst hc
      exact tankStep_ne_invalid sqrtQ pm traj st i heq

/-- C8 (second half).  The `TankDriveTrajectory` constructor raises
`InvalidParams` exactly when its source `BasicTrajectory` was built with
`is_tank = false` (tankdrivetrajectory.h:18-20); no other input makes it
produce that error. -/
theorem tankDriveTrajectory_invalidParams_iff (sqrtQ : ℚ → ℚ) (pm : PathM)
    (traj : BasicTrajectory) :
    tankDriveTrajectory sqrtQ pm traj = .error .invalidParams ↔
    traj.params.is_tank = false := by
  constructor
  · intro h
    by_contra htank
    simp only [tankDriveTrajectory] at h
    rw [if_neg htank] at h
    split at h
    any_goals (injection h with h; exact Err.noConfusion h)
    split at h
    · next e heq =>
      injection h with h
      subst h
      split at heq
      all_goals first
        | exact Except.noConfusion heq
        | (injection heq with heq; exact Err.noConfusion heq)
        | (split at heq
           all_goals first
             | exact Except.noConfusion heq
             | (injection heq with heq; exact Err.noConfusion heq))
    · split at h
      · next e heq =>
        injection h with h
        subst h
        exact tankLoop_ne_invalid _ _ _ _ _ heq
      · exact Except.noConfusion h
  · intro htank
    simp only [tankDriveTrajectory]
    rw [if_pos htank]

theorem abs_rabs_le {v m : ℚ} (hm : 0 ≤ m) : |rabs v m| ≤ m := by
  unfold rabs
  split
  · rw [abs_of_nonneg hm]
  · split
    · rw [abs_neg, abs_of_nonneg hm]
    · next h1 h2 => exact abs_le.mpr ⟨by linarith, by linarith⟩

theorem mem_dropLast_cons {α : Type} {x b : α} {l : List α} :
    x ∈ (b :: l).dropLast ↔ (x = b ∧ l ≠ []) ∨ x ∈ l.dropLast := by
  cases l with
  | nil => simp
  | cons r t =>
    rw [List.dropLast_cons₂]
    simp

/-- Bounds carried through the tank-drive loop: every moment already
finalized (all but the first emitted moment, which sits last in the
reversed list) has clipped wheel speeds, and the wheel velocities of the
first emitted moment are preserved. -/
def TankInv (mv : ℚ) (first : TankDriveMoment) (st : TankState) : Prop :=
  (∀ m ∈ st.revM.dropLast, |m.l_vel| ≤ mv ∧ |m.r_vel| ≤ mv) ∧
  (∃ lm, st.revM.getLast? = some lm ∧ lm.l_vel = first.l_vel ∧ lm.r_vel = first.r_vel)

theorem tankStep_shape {sqrtQ : ℚ → ℚ} {pm : PathM} {traj : BasicTrajectory}
    {st st2 : TankState} {i : Nat}
    (h : tankStep sqrtQ pm traj st i = .ok st2) :
    ∃ prev rest a c, st.revM = prev :: rest ∧ st2.revM = a :: c :: rest ∧
      (∃ x y, a.l_vel = rabs x traj.specs.max_v ∧ a.r_vel = rabs y traj.specs.max_v) ∧
      c.l_vel = prev.l_vel ∧ c.r_vel = prev.r_vel := by
  obtain ⟨revM, initW⟩ := st
  cases revM with
  | nil => exact absurd h (by simp [tankStep])
  | cons prev rest =>
    simp only [tankStep] at h
    split at h
    any_goals exact Except.noConfusion h
    injection h with h
    subst h
    exact ⟨prev, rest, _, _, rfl, rfl, ⟨_, _, rfl, rfl⟩, rfl, rfl⟩

theorem tankStep_inv {sqrtQ : ℚ → ℚ} {pm : PathM} {traj : BasicTrajectory}
    {st st2 : TankState} {i : Nat} {first : TankDriveMoment}
    (hmv : 0 ≤ traj.specs.max_v)
    (hinv : TankInv traj.specs.max_v first st)
    (h : tankStep sqrtQ pm traj st i = .ok st2) :
    TankInv traj.specs.max_v first st2 := by
  obtain ⟨prev, rest, a, c, hst, hst2, ⟨x, y, hax, hay⟩, hcl, hcr⟩ := tankStep_shape h
  obtain ⟨hdl, lm, hlast, hlv, hrv⟩ := hinv
  rw [hst] at hdl hlast
  constructor
  · rw [hst2]
    intro m hm
    rw [mem_dropLast_cons] at hm
    rcases hm with ⟨hm, _⟩ | hm
    · subst hm
      rw [hax, hay]
      exact ⟨abs_rabs_le hmv, abs_rabs_le hmv⟩
    · rw [mem_dropLast_cons] at hm
      rcases hm with ⟨hm, hne⟩ | hm
      · subst hm
        have hp := hdl prev (mem_dropLast_cons.mpr (Or.inl ⟨rfl, hne⟩))
        rw [hcl, hcr]
        exact hp
      · exact hdl m (mem_dropLast_cons.mpr (Or.inr hm))
  · rw [hst2, List.getLast?_cons_cons]
    cases rest with
    | nil =>
      simp only [List.getLast?_singleton, Option.some.injEq] at hlast ⊢
      refine ⟨c, rfl, ?_, ?_⟩
      · rw [hcl, hlast, hlv]
      · rw [hcr, hlast, hrv]
    | cons r t =>
      rw [List.getLast?_cons_cons] at hlast
      rw [List.getLast?_cons_cons]
      exact ⟨lm, hlast, hlv, hrv⟩

theorem tankLoop_inv {sqrtQ : ℚ → ℚ} {pm : PathM} {traj : BasicTrajectory}
    {first : TankDriveMoment} (hmv : 0 ≤ traj.specs.max_v) :
    ∀ (l : List Nat) {st st2 : TankState},
      TankInv traj.specs.max_v first st →
      tankLoop sqrtQ pm traj st l = .ok st2 →
      TankInv traj.specs.max_v first st2 := by
  intro l
  induction l with
  | nil =>
    intro st st2 hinv h
    simp only [tankLoop] at h
    injection h with h
    subst h
    exact hinv
  | cons i is ih =>
    intro st st2 hinv h
    simp only [tankLoop] at h
    split at h
    · next st1 heq => exact ih (tankStep_inv hmv hinv heq) h
    · exact Except.noConfusion h

theorem tail_reverse_eq {α : Type} (l : List α) : l.reverse.tail = l.dropLast.reverse := by
  cases l with
  | nil => rfl
  | cons a t =>
    have h1 : (a :: t) ≠ [] := by simp
    conv_lhs => rw [← List.dropLast_append_getLast h1]
    rw [List.reverse_append]
    simp

theorem mem_dropLast_or_getLast {α : Type} {l : List α} {m lm : α}
    (hm : m ∈ l) (hlm : l.getLast? = some lm) : m ∈ l.dropLast ∨ m = lm := by
  have hne : l ≠ [] := by
    intro hc
    subst hc
    simp at hlm
  rw [List.getLast?_eq_getLast_of_ne_nil hne] at hlm
  injection hlm with hlm
  conv at hm => rw [← List.dropLast_append_getLast hne]
  rw [List.mem_append] at hm
  rcases hm with hm | hm
  · exact Or.inl hm
  · right
    rw [← hlm]
    simpa using hm

/-- C6 (amended).  In a built `TankDriveTrajectory`, every moment after
the first has wheel speeds clipped to `±max_v` by `rabs`
(tankdrivetrajectory.h:45-46); the first moment is also bounded when the
start waypoint carries no velocity (its wheel speeds are zero), but it is
emitted without clipping when a start velocity is present
(tankdrivetrajectory.h:24-28). -/
theorem tank_wheel_speeds_clipped_after_first (sqrtQ : ℚ → ℚ) (pm : PathM)
    (traj : BasicTrajectory) (td : TankTraj)
    (hmv : 0 ≤ traj.specs.max_v)
    (h : tankDriveTrajectory sqrtQ pm traj = .ok td) :
    (∀ m ∈ td.moments.tail,
      |m.l_vel| ≤ traj.specs.max_v ∧ |m.r_vel| ≤ traj.specs.max_v) ∧
    (∀ w0 ∈ traj.params.waypoints.get? 0, w0.velocity = none →
      ∀ m ∈ td.moments,
        |m.l_vel| ≤ traj.specs.max_v ∧ |m.r_vel| ≤ traj.specs.max_v) := by
  simp only [tankDriveTrajectory] at h
  split at h
  · exact Except.noConfusion h
  split at h
  any_goals exact Except.noConfusion h
  rename_i w0 m0 hw0 hm0
  split at h
  · exact Except.noConfusion h
  rename_i first hfirst
  split at h
  any_goals exact Except.noConfusion h
  rename_i st hloop
  injection h with h
  subst h
  have hinv0 : TankInv traj.specs.max_v first ⟨[first], pm.wheels_at 0⟩ :=
    ⟨by simp, first, by simp, rfl, rfl⟩
  obtain ⟨hdl, lm, hlast, hlv, hrv⟩ := tankLoop_inv hmv _ hinv0 hloop
  constructor
  · intro m hm
    rw [tail_reverse_eq, List.mem_reverse] at hm
    exact hdl m hm
  · intro w0' hw0' hvnone
    rw [hw0] at hw0'
    have hw0e : w0 = w0' := by simpa using hw0'
    subst hw0e
    rw [hvnone] at hfirst
    injection hfirst with hfirst
    intro m hm
    rw [List.mem_reverse] at hm
    rcases mem_dropLast_or_getLast hm hlast with hm2 | hm2
    · exact hdl m hm2
    · subst hm2
      rw [hlv, hrv, ← hfirst]
      constructor <;> simpa using hmv

/-- The source `BasicTrajectory` for the tank-drive counterexample: one
moment with centerline velocity 10, curvature radius 1, `max_v = 1`,
`base_width = 2`, and a start waypoint carrying velocity 10. -/
def btC6 : BasicTrajectory :=
  ⟨[⟨0, 10, 0, 0, 0, 0, false⟩], [0], [1], 0, ⟨1, 1, 2⟩,
   ⟨[⟨0, 0, 0, some 10⟩, ⟨0, 1, 0, none⟩], 0, 1, true⟩⟩

/-- Placeholder tank trajectory for projecting `Except` results. -/
def dummyTD : TankTraj := ⟨[], 0⟩

/-- C6 (counterexample).  The first tank-drive moment is emitted without
clipping: with start velocity 10, curvature radius 1 and `base_width 2`,
its right wheel speed is `10 + 10 = 20`, far above `max_v = 1`. -/
theorem tank_first_moment_unclipped :
    (tankDriveTrajectory ratSqrt pmLine btC6).isOk = true ∧
    ((tankDriveTrajectory ratSqrt pmLine btC6).toOption.getD dummyTD).moments.head?
      = some ⟨0, 0, 0, 20, 0, 0, 0, 0, 0⟩ ∧
    btC6.specs.max_v = 1 ∧ ¬ (|(20 : ℚ)| ≤ (1 : ℚ)) :=
  ⟨by with_unfolding_all rfl, by with_unfolding_all rfl, rfl, by norm_num⟩

/-- The source `BasicTrajectory` for the witness of
`tank_wheel_speeds_clipped_after_first`: two moments, no start velocity,
so the nominal right wheel speed `0 + 10·1 = 20` at sample 1 is clipped
to `max_v = 1`. -/
def btW6 : BasicTrajectory :=
  ⟨[⟨0, 0, 0, 0, 0, 0, false⟩, ⟨5, 10, 0, 0, 1, 0, false⟩], [0, 1/2], [1, 1], 0,
   ⟨1, 1, 2⟩, ⟨[⟨0, 0, 0, none⟩, ⟨0, 1, 0, none⟩], 0, 2, true⟩⟩

/-- Witness for `tank_wheel_speeds_clipped_after_first` at the concrete
trajectory `btW6`. -/
theorem tank_wheel_speeds_clipped_after_first_witness :
    (0 ≤ btW6.specs.max_v) ∧
    ((∀ m ∈ ((tankDriveTrajectory ratSqrt pmLine btW6).toOption.getD dummyTD).moments.tail,
      |m.l_vel| ≤ btW6.specs.max_v ∧ |m.r_vel| ≤ btW6.specs.max_v) ∧
    (∀ w0 ∈ btW6.params.waypoints.get? 0, w0.velocity = none →
      ∀ m ∈ ((tankDriveTrajectory ratSqrt pmLine btW6).toOption.getD dummyTD).moments,
        |m.l_vel| ≤ btW6.specs.max_v ∧ |m.r_vel| ≤ btW6.specs.max_v)) :=
  ⟨by norm_num [btW6], tank_wheel_speeds_clipped_after_first ratSqrt pmLine btW6 _
    (by norm_num [btW6]) (by with_unfolding_all rfl)⟩

/-- Robot limits that are all negative, for the validation
counterexample. -/
def specsNeg : RobotSpecs := ⟨-1, -1, -1⟩

/-- C8 (counterexample).  Non-positive robot limits are not rejected:
with `max_v = max_a = base_width = −1` the `BasicTrajectory` constructor
completes without raising any error at all, contradicting the claim that
such inputs raise `InvalidParams`. -/
theorem negative_limits_not_rejected :
    specsNeg.max_v < 0 ∧ specsNeg.max_a < 0 ∧ specsNeg.base_width < 0 ∧
    (basicTrajectory sqrtUp (fun _ _ => 0) 0 pmLine specsNeg paramsW).isOk = true :=
  ⟨by norm_num [specsNeg], by norm_num [specsNeg], by norm_num [specsNeg],
    by with_unfolding_all rfl⟩

/-- C8 (amended).  `InvalidParams` is raised exactly by the two checks
that exist: the spec-modelled fewer-than-two-waypoints rejection in the
path construction, and the non-tank rejection in `TankDriveTrajectory`;
`seg_count` and the robot limits are never validated. -/
theorem invalidParams_exactly_characterized :
    (∀ (sqrtQ : ℚ → ℚ) (atan2Q : ℚ → ℚ → ℚ) (uninit : ℚ) (pm : PathM)
        (specs : RobotSpecs) (params : TrajectoryParams),
      basicTrajectory sqrtQ atan2Q uninit pm specs params = .error .invalidParams ↔
        params.waypoints.length < 2) ∧
    (∀ (sqrtQ : ℚ → ℚ) (pm : PathM) (traj : BasicTrajectory),
      tankDriveTrajectory sqrtQ pm traj = .error .invalidParams ↔
        traj.params.is_tank = false) :=
  ⟨basicTrajectory_invalidParams_iff, tankDriveTrajectory_invalidParams_iff⟩

/-- C3 (counterexample).  With start velocity `1` and end velocity `−2`
(both accepted without error), the backward pass records the time delta
`(−2 − 1)/(3/10) = −10`, so the second moment's time is below the
first's: the moment sequence is not nondecreasing in time. -/
theorem basic_time_not_monotone :
    (basicTrajectory ratSqrt (fun _ _ => 0) 0 pmLine specsW paramsC3).isOk = true ∧
    ((basicTrajectory ratSqrt (fun _ _ => 0) 0 pmLine specsW
        paramsC3).toOption.getD dummyBT).moments.map (fun m => (m.dist, m.time))
      = [(0, 0), (5, -10)] ∧
    ¬ ((0 : ℚ) ≤ -10) :=
  ⟨by with_unfolding_all rfl, by with_unfolding_all rfl, by norm_num⟩

theorem mv_term_nonneg (specs : RobotSpecs) (hmv : 0 ≤ specs.max_v)
    (hbw : 0 ≤ specs.base_width) (b : Bool) (pathr : List ℚ) (idx : List Nat) :
    ∀ x ∈ (if b = true then
        pathr.map (fun r => specs.max_v / (1 + specs.base_width / (2 * |r|)))
      else idx.map fun _ => specs.max_v), 0 ≤ x := by
  split <;> intro x hx <;> rw [List.mem_map] at hx <;> obtain ⟨r, _, rfl⟩ := hx
  · refine div_nonneg hmv ?_
    have h1 : 0 ≤ specs.base_width / (2 * |r|) := div_nonneg hbw (by positivity)
    linarith
  · exact hmv

/-- C3 (amended).  Provided every waypoint velocity that is specified is
nonnegative and the robot limits and path length are nonnegative (the
square-root primitive being nonnegative and an upper bound on square
roots), every successfully built `BasicTrajectory` has moments
nondecreasing in both arc length and time. -/
theorem basic_moments_monotone (sqrtQ : ℚ → ℚ) (atan2Q : ℚ → ℚ → ℚ) (uninit : ℚ)
    (pm : PathM) (specs : RobotSpecs) (params : TrajectoryParams) (bt : BasicTrajectory)
    (hs1 : ∀ x, 0 ≤ sqrtQ x)
    (hs2 : ∀ x y, 0 ≤ x → x * x ≤ y → x ≤ sqrtQ y)
    (hwp : ∀ w ∈ params.waypoints, ∀ v ∈ w.velocity, 0 ≤ v)
    (hmv : 0 ≤ specs.max_v) (hma : 0 ≤ specs.max_a) (hbw : 0 ≤ specs.base_width)
    (hplen : 0 ≤ pm.len)
    (h : basicTrajectory sqrtQ atan2Q uninit pm specs params = .ok bt) :
    List.Chain' (fun a b => a.dist ≤ b.dist ∧ a.time ≤ b.time) bt.moments := by
  have hdpi : 0 ≤ pm.len / (params.seg_count : ℚ) :=
    div_nonneg hplen (by positivity)
  simp only [basicTrajectory] at h
  split at h
  · exact Except.noConfusion h
  split at h
  any_goals exact Except.noConfusion h
  rename_i w0 wLast h0 hw0 hwL hh0
  split at h
  any_goals exact Except.noConfusion h
  rename_i st hfwd
  split at h
  any_goals exact Except.noConfusion h
  rename_i mLast restM f0 restF hterm hflags
  split at h
  any_goals exact Except.noConfusion h
  rename_i bm btd hbwd
  injection h with h
  subst h
  -- nonnegativity of the starting moment's velocity and the end velocity
  have hw0mem : w0 ∈ params.waypoints := List.get?_mem hw0
  have hwLmem : wLast ∈ params.waypoints := List.get?_mem hwL
  have hm0v : 0 ≤ (mk4 uninit 0 (w0.velocity.getD 0) 0 h0).vel := by
    simp only [mk4]
    rcases hv : w0.velocity with _ | v
    · simp
    · simpa using hwp w0 hw0mem v (by simp [hv])
  have hendv : 0 ≤ wLast.velocity.getD 0 := by
    rcases hv : wLast.velocity with _ | v
    · simp
    · simpa using hwp wLast hwLmem v (by simp [hv])
  -- the forward-pass invariant
  have hinv0 : FwdInv ⟨[mk4 uninit 0 (w0.velocity.getD 0) 0 h0], [], [false],
      List.filterMap (fun j => (params.waypoints.get? j).bind fun w =>
        Option.map (fun v =>
          (pm.t2s ((j : ℚ) * (1 / ((params.waypoints.length : ℚ) - 1))) * pm.len, v))
          w.velocity)
        (List.range' 1 (params.waypoints.length - 2))⟩ := by
    refine ⟨?_, by simp, ?_⟩
    · intro m hm
      simp only [List.mem_singleton] at hm
      subst hm
      exact hm0v
    · exact constraints_vel_nonneg hwp
  have hinvst : FwdInv st :=
    fwdLoop_inv hdpi hma (mv_term_nonneg specs hmv hbw _ _ _) hs1 hs2 hinv0 hfwd
  obtain ⟨hstvel, hsttd, _⟩ := hinvst
  -- velocities after the terminal adjustment
  have hvels0 : ∀ m ∈ mLast :: restM, 0 ≤ m.vel := by
    rw [← hterm]
    exact terminalAdjust_vel hendv hstvel
  -- the backward pass
  obtain ⟨hbmtag, hbmvel, hbtdnn, hbmlen, hbtdlen⟩ :=
    bwdLoop_props hdpi hma hs1 hs2 (hvels0 mLast (by simp))
      (fun m hm => hvels0 m (by simp [hm])) hsttd hbwd
  -- distance layout, as in the shape analysis
  obtain ⟨hst, _, _⟩ := fwdLoop_tags hfwd
  have hm0tag : mTag (mk4 uninit 0 (w0.velocity.getD 0) 0 h0) = (0, uninit, uninit) := by
    simp [mTag, mk4]
  rw [List.map_cons, List.map_nil, hm0tag] at hst
  have hterm2 : (mLast :: restM).map mTag = st.revM.map mTag := by
    rw [← hterm, terminalAdjust_map_mTag]
  have hm1 : ((mLast :: bm).reverse).map mTag =
      (0, uninit, uninit) :: (List.range' 1 (params.seg_count - 1)).map
        (fun i : Nat => ((i : ℚ) * (pm.len / (params.seg_count : ℚ)), uninit, uninit)) := by
    rw [List.map_reverse, List.map_cons, hbmtag, ← List.map_cons mTag mLast restM, hterm2, hst]
    simp
  have hlen : restM.length = bm.length := by
    have := congrArg List.length hbmtag
    simpa using this.symm
  have hvels1 : ∀ m ∈ (mLast :: bm).reverse, 0 ≤ m.vel := by
    intro m hm
    rw [List.mem_reverse] at hm
    rcases List.mem_cons.mp hm with hm | hm
    · rw [hm]
      exact hvels0 mLast (by simp)
    · exact hbmvel m hm
  set fgoal := (match ((mLast :: bm).reverse).head? with
    | some mh => if mh.backwards then -mh.heading else mh.heading
    | none => 0 : ℚ) with hf
  have hm2 : (((mLast :: bm).reverse).map (fun m => { m with init_facing := fgoal })).map mTag =
      (0, uninit, uninit) :: (List.range' 1 (params.seg_count - 1)).map
        (fun i : Nat => ((i : ℚ) * (pm.len / (params.seg_count : ℚ)), uninit, uninit)) := by
    rw [map_facing_mTag, hm1]
  rcases hmom : ((mLast :: bm).reverse).map (fun m => { m with init_facing := fgoal }) with
    _ | ⟨a, ms⟩
  · rw [hmom] at hm2; simp at hm2
  · rw [hmom] at hm2
    rw [List.map_cons] at hm2
    injection hm2 with hma2 hms
    simp only [mTag, Prod.mk.injEq] at hma2
    obtain ⟨had, _, _⟩ := hma2
    have hvels2 : ∀ m ∈ a :: ms, 0 ≤ m.vel := by
      rw [← hmom]
      intro m hm
      rw [List.mem_map] at hm
      obtain ⟨m0', hm0', rfl⟩ := hm
      exact hvels1 m0' hm0'
    have hmslen : bm.length = ms.length := by
      have := congrArg List.length hmom
      simpa using this
    have htdslen : ms.length ≤ (btd.reverse).length := by
      rw [List.length_reverse, hbtdlen, hlen, hmslen]
    have hmsdist : ms.map (·.dist) = (List.range' 1 (params.seg_count - 1)).map
        (fun i : Nat => (i : ℚ) * (pm.len / (params.seg_count : ℚ))) := by
      have h1 : ms.map (·.dist) = (ms.map mTag).map (·.1) := by
        rw [List.map_map]; rfl
      rw [h1, hms, List.map_map]
      rfl
    have hzipdist : (ms.zip btd.reverse).map (fun p => p.1.dist) = ms.map (·.dist) := by
      have h1 : (ms.zip btd.reverse).map (fun p => p.1.dist) =
          ((ms.zip btd.reverse).map Prod.fst).map (·.dist) := by
        rw [List.map_map]; rfl
      rw [h1, List.map_fst_zip ms btd.reverse htdslen]
    have hdchain : List.Chain' (· ≤ ·) (a.dist :: (ms.zip btd.reverse).map (fun p => p.1.dist)) := by
      rw [hzipdist, hmsdist, had]
      exact chain_zero_mul_range' _ hdpi _
    rw [hmom]
    exact integLoop_chain (ms.zip btd.reverse) a (hvels2 a (by simp))
      (fun p hp => hvels2 p.1 (by simp [(List.of_mem_zip hp).1]))
      hdchain
      (fun p hp x hx => hbtdnn p.2 (by
        have := (List.of_mem_zip hp).2
        rwa [List.mem_reverse] at this) x hx)

/-- Witness for `basic_moments_monotone`: the straight-line run with all
waypoint velocities unset and positive limits. -/
theorem basic_moments_monotone_witness :
    (0 ≤ specsW.max_v) ∧
    List.Chain' (fun a b : BasicMoment => a.dist ≤ b.dist ∧ a.time ≤ b.time)
      ((basicTrajectory sqrtUp (fun _ _ => 0) 0 pmLine specsW
        paramsW).toOption.getD dummyBT).moments :=
  ⟨by norm_num [specsW],
    basic_moments_monotone sqrtUp (fun _ _ => 0) 0 pmLine specsW paramsW _
      sqrtUp_nonneg sqrtUp_ge
      (by
        intro w hw v hv
        simp only [paramsW, List.mem_cons, List.not_mem_nil, or_false] at hw
        rcases hw with h | h <;> subst h <;> simp at hv)
      (by norm_num [specsW]) (by norm_num [specsW]) (by norm_num [specsW])
      (by norm_num [pmLine]) (by with_unfolding_all rfl)⟩

end RPF
